import Mathlib

/-!
# intmul: recursive hexadecimal multiplication by forked workers

A shallow embedding of `src/intmul.c`.

* C strings are `List Char`; a byte buffer is read as a string up to its
  first NUL (`cstr`).
* A process is a function from the bytes on its standard input to a `Run`
  (what it wrote to standard output and how it ended).  `fork` + `execlp`
  of the same program is a recursive call of `worker`; the recursion is
  driven by a fuel argument that counts process generations.
* The heap buffer of `addhexstr` is modelled byte by byte, because the
  function reads it back with `strlen`; bytes that the program never
  initialises are given by the parameter `junk`.
* Where the C text leaves the outcome to the platform, the outcome is a
  field of `Platform`: the bytes of uninitialised heap memory, what
  `add_leading_zero` leaves of a string of odd length (it keeps the result
  of `realloc` in a by-value parameter and copies with `strcpy` between
  overlapping objects), and the number of bytes a pipe takes before a
  `write` to it waits (the program writes to each pipe before it forks the
  reader).  Theorems about runs name what they need of the platform as
  hypotheses.
-/

namespace Intmul

/-! ## Characters and C strings -/

/-- The string terminator. -/
def NUL : Char := Char.ofNat 0

/-- The newline character. -/
def NL : Char := Char.ofNat 10

/-- The string held in a byte buffer: the bytes before the first NUL
(what `strlen`, `strcpy` and `%s` see). -/
def cstr (buf : List Char) : List Char :=
  buf.takeWhile (fun c => c != NUL)

/-- Source `hextodec`: value of a hexadecimal digit, `-1` for any other
character. -/
def hextodec (c : Char) : Int :=
  if c = '0' then 0
  else if c = '1' then 1
  else if c = '2' then 2
  else if c = '3' then 3
  else if c = '4' then 4
  else if c = '5' then 5
  else if c = '6' then 6
  else if c = '7' then 7
  else if c = '8' then 8
  else if c = '9' then 9
  else if c = 'a' then 10
  else if c = 'A' then 10
  else if c = 'b' then 11
  else if c = 'B' then 11
  else if c = 'c' then 12
  else if c = 'C' then 12
  else if c = 'd' then 13
  else if c = 'D' then 13
  else if c = 'e' then 14
  else if c = 'E' then 14
  else if c = 'f' then 15
  else if c = 'F' then 15
  else -1

/-- Source `dectohex`: the lowercase digit of a value in `0..15`; `none`
is the `assert(0)` of the default branch. -/
def dectohex (i : Int) : Option Char :=
  if i = 0 then some '0'
  else if i = 1 then some '1'
  else if i = 2 then some '2'
  else if i = 3 then some '3'
  else if i = 4 then some '4'
  else if i = 5 then some '5'
  else if i = 6 then some '6'
  else if i = 7 then some '7'
  else if i = 8 then some '8'
  else if i = 9 then some '9'
  else if i = 10 then some 'a'
  else if i = 11 then some 'b'
  else if i = 12 then some 'c'
  else if i = 13 then some 'd'
  else if i = 14 then some 'e'
  else if i = 15 then some 'f'
  else none

/-! ## addhexstr on its heap buffer -/

/-- Source `memset(mem + start, val, count)`. -/
def memset (mem : Nat → Char) (start : Nat) (val : Char) (count : Nat) : Nat → Char :=
  fun i => if start ≤ i ∧ i < start + count then val else mem i

/-- Store one byte: `mem[i] = c`. -/
def store (mem : Nat → Char) (i : Nat) (c : Char) : Nat → Char :=
  fun j => if j = i then c else mem j

/-- The local variables of `addhexstr` that change in its loop. -/
structure AddState where
  /-- The bytes of `out_buffer`, by offset. -/
  out_buffer : Nat → Char
  /-- The variable `out_buffer_len`; the allocation has `out_buffer_len + 5` bytes. -/
  out_buffer_len : Nat
  /-- The variable `buffer_counter`. -/
  buffer_counter : Nat
  /-- The variable `carry`. -/
  carry : Int

/-- The state of `addhexstr` before its loop: `malloc(64 + 5)` followed by
`memset(out_buffer, 0, 64 + 5)`.  Offsets from 69 on are outside the first
allocation; they become part of the buffer when `realloc` grows it, with
indeterminate content, which is what `junk` supplies. -/
def addhexstr_init (junk : Nat → Char) : AddState :=
  { out_buffer := fun i => if i < 64 + 5 then NUL else junk i
    out_buffer_len := 64
    buffer_counter := 0
    carry := 0 }

/-- One iteration of the `while` loop of `addhexstr` on the current digits
`cur_hchar1`, `cur_hchar2`.  `none` is the `assert(0)` in `dectohex`.
`realloc` keeps the old bytes and doubles `out_buffer_len`; the only new
bytes the program writes are the four of the `memset`. -/
def addhexstr_step (cur_hchar1 cur_hchar2 : Char) (st : AddState) : Option AddState :=
  let addresult := hextodec cur_hchar1 + hextodec cur_hchar2 + st.carry
  let carry : Int := if addresult > 15 then 1 else 0
  let grown : AddState :=
    if st.buffer_counter = st.out_buffer_len then
      { st with
        out_buffer_len := 2 * st.out_buffer_len
        out_buffer := memset st.out_buffer st.buffer_counter NUL 4 }
    else st
  match dectohex (Int.tmod addresult 16) with
  | none => none
  | some d =>
    some
      { out_buffer := store (store grown.out_buffer st.buffer_counter d) (st.buffer_counter + 1) NUL
        out_buffer_len := grown.out_buffer_len
        buffer_counter := st.buffer_counter + 1
        carry := carry }

/-- The `while` loop of `addhexstr`.  The two strings are held reversed
(`s1_end`, `s2_end` walk from the last character to the first); an
exhausted string contributes `'0'`.  The first argument is the number of
iterations left, `max` of the two lengths. -/
def addhexstr_loop : Nat → List Char → List Char → AddState → Option AddState
  | 0, _, _, st => some st
  | k + 1, r1, r2, st =>
    match addhexstr_step (r1.headD '0') (r2.headD '0') st with
    | none => none
    | some st1 => addhexstr_loop k r1.tail r2.tail st1

/-- Source `strlen` on a heap buffer of `size` bytes: the offset of the
first NUL; `none` when the allocation holds no NUL (the read would leave
the allocation). -/
def strlen (mem : Nat → Char) (size : Nat) : Option Nat :=
  (List.range size).find? (fun i => mem i == NUL)

/-- Source `revarr(a1, size)`: `buffer[i] = a1[size - 2 - i]` for
`i < size - 1`, `buffer[size - 1] = NUL`, then `strcpy(a1, buffer)`, which
copies up to and including the first NUL of `buffer`. -/
def revarr (a1 : Nat → Char) (size : Nat) : Nat → Char :=
  let buffer : Nat → Char := fun i => if i < size - 1 then a1 (size - 2 - i) else NUL
  let len := ((List.range size).find? (fun i => buffer i == NUL)).getD (size - 1)
  fun i => if i ≤ len then buffer i else a1 i

/-- The string at the start of a heap buffer of `size` bytes. -/
def readstr (mem : Nat → Char) (size : Nat) : List Char :=
  cstr ((List.range size).map mem)

/-- Source `addhexstr`.  After the loop a final carry stores `'1'` at
`buffer_counter` without storing a terminator after it; `revarr` is called
with `strlen(out_buffer) + 1`; then `out_buffer[buffer_counter] = NUL`.
`none` is an `assert(0)` or a `strlen` that runs out of the allocation. -/
def addhexstr (junk : Nat → Char) (s1 s2 : List Char) : Option (List Char) :=
  match addhexstr_loop (max s1.length s2.length) s1.reverse s2.reverse (addhexstr_init junk) with
  | none => none
  | some st =>
    let out_buffer := if st.carry = 1 then store st.out_buffer st.buffer_counter '1' else st.out_buffer
    let buffer_counter := if st.carry = 1 then st.buffer_counter + 1 else st.buffer_counter
    match strlen out_buffer (st.out_buffer_len + 5) with
    | none => none
    | some len =>
      let reversed := revarr out_buffer (len + 1)
      some (readstr (store reversed buffer_counter NUL) (st.out_buffer_len + 5))

/-- Source `hexlsh`: a copy of `s` followed by `n` characters `'0'`. -/
def hexlsh (s : List Char) (n : Nat) : List Char :=
  s ++ List.replicate n '0'

/-! ## The platform -/

/-- What a run takes from the platform where the C text does not fix the
outcome. -/
structure Platform where
  /-- The content of heap bytes that are read before the program has
  written them (the bytes `realloc` adds to `out_buffer` in `addhexstr`). -/
  junk : Nat → Char
  /-- What the caller of `add_leading_zero` finds in its string after the
  call on a string of odd length; `none` when the call does not return. -/
  odd_pad : List Char → Option (List Char)
  /-- The number of bytes a pipe takes before a `write` to it waits for a
  reader. -/
  pipe_capacity : Nat

/-- Source `add_leading_zero`.  A string of even length is left alone.
For an odd length the function keeps the result of `realloc(s, len + 2)`
in its by-value parameter only, so the caller goes on with the old
pointer, and it calls `strcpy(s + 1, s)`, a copy between overlapping
objects.  C defines neither the later use of a block that `realloc` has
moved nor that copy, so what the caller then finds in its string is the
platform's `odd_pad`; the stores `s[0] = '0'` and `s[len + 1] = NUL` that
follow act on whatever the copy has left. -/
def add_leading_zero (p : Platform) (s : List Char) : Option (List Char) :=
  if s.length % 2 ≠ 0 then p.odd_pad s else some s

/-! ## Input -/

/-- Source `input_string`: the bytes of the stream up to the first newline
or the end of the stream, and the stream that is left (the newline is
consumed). -/
def input_string (fp : List Char) : List Char × List Char :=
  (fp.takeWhile (fun c => c != NL), (fp.dropWhile (fun c => c != NL)).drop 1)

/-- One half of source `sanitize_input`: a string that ends in a newline
loses that one character. -/
def sanitize_one (buf : List Char) : List Char :=
  if buf.getLast? = some NL then buf.dropLast else buf

/-- Source `sanitize_input`, on the strings held in the two buffers. -/
def sanitize_input (A_buffer B_buffer : List Char) : List Char × List Char :=
  (sanitize_one A_buffer, sanitize_one B_buffer)

/-- The messages given to `exit_error`. -/
inductive Diag where
  /-- Message "no input given". -/
  | no_input_given
  /-- Message "A and B don't have equal length". -/
  | no_equal_length
  /-- Message "input contained invalid character". -/
  | invalid_character
  /-- Message "couldn't parse single digit". -/
  | parse_single_digit
  /-- Message "input is not even". -/
  | input_is_not_even
  /-- Message "failed to read results from child". -/
  | read_results_failed
  /-- Message "wait for child failed". -/
  | wait_for_child_failed
  /-- Message "waitpid failed". -/
  | waitpid_failed
  deriving DecidableEq, Repr

/-- Source `validate_input`: `none` when the function returns, `some d`
when it calls `exit_error`. -/
def validate_input (A_buffer B_buffer : List Char) : Option Diag :=
  if A_buffer.length = 0 ∨ B_buffer.length = 0 then some Diag.no_input_given
  else if A_buffer.length ≠ B_buffer.length then some Diag.no_equal_length
  else if (A_buffer.zip B_buffer).any (fun p => hextodec p.1 == -1 || hextodec p.2 == -1) then
    some Diag.invalid_character
  else none

/-! ## Processes -/

/-- How a process ended and what it left on its standard output. -/
inductive Run where
  /-- Normal end with `EXIT_SUCCESS`. -/
  | success (stdout : List Char)
  /-- Source `exit_error`: `exit(EXIT_FAILURE)`, which still flushes the
  bytes already printed. -/
  | error (stdout : List Char) (diag : Diag)
  /-- An `assert(0)`, a read out of a buffer, or a call in
  `add_leading_zero` that does not return: the process is killed and
  nothing is flushed. -/
  | aborted
  /-- The process never ends: it waits in a `write` to a full pipe that has
  no reader yet, or in a read from a child that never writes.  Nothing is
  flushed. -/
  | blocked
  deriving DecidableEq, Repr

/-- The bytes a process wrote to its standard output. -/
def Run.stdout : Run → List Char
  | Run.success out => out
  | Run.error out _ => out
  | Run.aborted => []
  | Run.blocked => []

/-- Source `wait_for_termination`: `WEXITSTATUS` of the child, which is 0
for `EXIT_SUCCESS`, 1 for `EXIT_FAILURE`, and 0 for a child killed by a
signal (the exit-status byte of its wait status is zero).  On a child that
never ends `waitpid` does not return; `collect` does not come to that
call, because it waits in `fgets` on that child before (`fgets_blocks`). -/
def wait_for_termination : Run → Nat
  | Run.success _ => 0
  | Run.error _ _ => 1
  | Run.aborted => 0
  | Run.blocked => 0

/-- Library `strtol(s, NULL, 16)` on a string of hexadecimal digits: the
value of the longest prefix of digits.  Signs, white space and a `0x`
prefix are not modelled; the only caller passes one validated digit. -/
def strtol16 : List Char → Int → Int
  | [], acc => acc
  | c :: cs, acc => if hextodec c = -1 then acc else strtol16 cs (acc * 16 + hextodec c)

/-- Library `printf("%x", v)` for `v ≥ 0`: lowercase hexadecimal, no
leading zeros, `"0"` for zero. -/
def printf_x (v : Int) : List Char :=
  Nat.toDigits 16 v.toNat

/-- Source `print_product_and_exit`. -/
def print_product_and_exit (abuf bbuf : List Char) : Run :=
  let A := strtol16 abuf 0
  let B := strtol16 bbuf 0
  if A < 0 ∨ B < 0 then Run.error [] Diag.parse_single_digit
  else Run.success (printf_x (A * B) ++ [NL])

/-- Source `send_child_data`: `fprintf(out_stream, "%s\n%s\n", A_data, B_data)`. -/
def send_child_data (A_data B_data : List Char) : List Char :=
  A_data ++ [NL] ++ B_data ++ [NL]

/-- Library `fgets(buf, size, stream)` at the start of a stream: `none` at
end of file, else at most `size - 1` bytes, stopping after a newline. -/
def fgets : Nat → List Char → Option (List Char)
  | _, [] => none
  | size, c :: cs => some (go (size - 1) (c :: cs))
where
  /-- At most `k` bytes, stopping after a newline. -/
  go : Nat → List Char → List Char
    | 0, _ => []
    | _, [] => []
    | k + 1, c :: cs => if c = NL then [c] else c :: go k cs

/-- One row of `results` in `main`: `fgets(results[i], nhalf * 2 + 1, in_stream)`
on the child's output, then the removal of a trailing newline.  `none` is
the `NULL` of `fgets`.  (For an empty string the source tests the byte
before the row; the model leaves the row as it is.) -/
def read_result (nhalf : Nat) (child : Run) : Option (List Char) :=
  match fgets (nhalf * 2 + 1) child.stdout with
  | none => none
  | some buf => some (sanitize_one (cstr buf))

/-- The loop of `fgets` calls over the four pipes never returns: in the
order of the pipes, a child that never ends (and so never writes and never
closes its end) comes before any child whose pipe is at end of file. -/
def fgets_blocks (nhalf : Nat) : List Run → Bool
  | [] => false
  | Run.blocked :: _ => true
  | c :: cs => (read_result nhalf c).isSome && fgets_blocks nhalf cs

/-- The part of `main` that runs in the parent after the four children are
started (lines 194 to 253), as a function of the four children's runs.
The product line is printed before the children are waited for. -/
def collect (p : Platform) (n : Nat) (c0 c1 c2 c3 : Run) : Run :=
  let nhalf := n / 2
  if fgets_blocks nhalf [c0, c1, c2, c3] then Run.blocked
  else
    match read_result nhalf c0, read_result nhalf c1, read_result nhalf c2, read_result nhalf c3 with
    | some res0, some res1, some res2, some res3 =>
      let r1 := hexlsh res0 n
      let r2 := hexlsh res1 nhalf
      let r3 := hexlsh res2 nhalf
      match (addhexstr p.junk r1 r2).bind (fun a1 =>
            (addhexstr p.junk a1 r3).bind (fun a2 => addhexstr p.junk a2 res3)) with
      | none => Run.aborted
      | some a3 =>
        match add_leading_zero p a3 with
        | none => Run.aborted
        | some line =>
          let out := line ++ [NL]
          if wait_for_termination c0 ≠ 0 ∨ wait_for_termination c1 ≠ 0 ∨
              wait_for_termination c2 ≠ 0 ∨ wait_for_termination c3 ≠ 0 then
            Run.error out Diag.wait_for_child_failed
          else Run.success out
    | _, _, _, _ => Run.error [] Diag.read_results_failed

/-- Source `main` as a process started without arguments: from the bytes
on standard input to the run.  A child (`fork`, `dup2`, `execlp` of the
same program) is a call with one unit of fuel less on the bytes
`send_child_data` wrote into its pipe; `none` means the fuel did not
suffice.  `send_child_data` for the first child (line 152) comes before
the first `fork` (line 154), while the parent itself holds the only read
end: when the bytes do not fit into the pipe, the `write` never returns
and no child is started (the four writes have the same length, so the
first one decides).  Failures of `pipe`, `fork`, `dup2`, `execlp`,
`close`, `fdopen`, `waitpid` and of the allocator are not part of the
model. -/
def worker (p : Platform) : Nat → List Char → Option Run
  | 0, _ => none
  | fuel + 1, stdin =>
    let A_line := input_string stdin
    let B_line := input_string A_line.2
    let AB := sanitize_input (cstr A_line.1) (cstr B_line.1)
    let A_buffer := AB.1
    let B_buffer := AB.2
    match validate_input A_buffer B_buffer with
    | some d => some (Run.error [] d)
    | none =>
      if A_buffer.length = 1 then some (print_product_and_exit A_buffer B_buffer)
      else if A_buffer.length % 2 ≠ 0 ∨ B_buffer.length % 2 ≠ 0 then
        some (Run.error [] Diag.input_is_not_even)
      else
        let n := A_buffer.length
        let nhalf := n / 2
        let Ah := A_buffer.take nhalf
        let Al := (A_buffer.drop nhalf).take nhalf
        let Bh := B_buffer.take nhalf
        let Bl := (B_buffer.drop nhalf).take nhalf
        if p.pipe_capacity < (send_child_data Ah Bh).length then some Run.blocked
        else
          match worker p fuel (send_child_data Ah Bh), worker p fuel (send_child_data Ah Bl),
              worker p fuel (send_child_data Al Bh), worker p fuel (send_child_data Al Bl) with
          | some c0, some c1, some c2, some c3 => some (collect p n c0 c1 c2 c3)
          | _, _, _, _ => none

/-- The program run on the two input lines `A` and `B`. -/
def multiply (p : Platform) (A B : List Char) : Option Run :=
  worker p (A.length + 1) (send_child_data A B)

/-! ## Reading strings as numbers -/

/-- The decimal digit characters. -/
def decimalDigits : List Char := ['0', '1', '2', '3', '4', '5', '6', '7', '8', '9']

/-- The lowercase letters that are hexadecimal digits. -/
def lowerLetters : List Char := ['a', 'b', 'c', 'd', 'e', 'f']

/-- The uppercase letters that are hexadecimal digits. -/
def upperLetters : List Char := ['A', 'B', 'C', 'D', 'E', 'F']

/-- The 16 lowercase digit characters `[0-9a-f]`, in the order of their values. -/
def lowerDigits : List Char := decimalDigits ++ lowerLetters

/-- The 22 hexadecimal digit characters `[0-9a-fA-F]`. -/
def hexDigits : List Char := lowerDigits ++ upperLetters

/-- The value of one digit as a natural number. -/
def digitVal (c : Char) : Nat := (hextodec c).toNat

/-- The integer a digit string denotes in base 16, most significant digit first. -/
def hexval (s : List Char) : Nat :=
  s.foldl (fun acc c => acc * 16 + digitVal c) 0

/-- The integer a digit string denotes when its first digit is the least significant one. -/
def lsbval : List Char → Nat
  | [] => 0
  | c :: cs => digitVal c + 16 * lsbval cs

/-- The bytes `mem[start], ..., mem[start + k - 1]`. -/
def bytes (mem : Nat → Char) (start k : Nat) : List Char :=
  (List.range k).map (fun i => mem (start + i))

/-- Invariant of the loop of `addhexstr`. -/
structure AddInv (st : AddState) : Prop where
  le : st.buffer_counter ≤ st.out_buffer_len
  big : 64 ≤ st.out_buffer_len
  zeros : ∀ j, st.buffer_counter ≤ j → j < 69 → st.out_buffer j = NUL
  term : st.out_buffer st.buffer_counter = NUL
  carry : st.carry = 0 ∨ st.carry = 1

/-- The lowercase digit of a value below 16. -/
def lowerDigit (v : Nat) : Char := lowerDigits.getD v '0'

/-- The text the specification gives for the product of two single digits:
lowercase hexadecimal without a leading zero, one digit below 16 and two
digits otherwise. -/
def hexText (v : Nat) : List Char :=
  if v < 16 then [lowerDigit v] else [lowerDigit (v / 16), lowerDigit (v % 16)]

/-- The recombination of the four partial products as the specification
writes it: `addHex(addHex(addHex(shiftLeft(HH, n), shiftLeft(HL, n/2)),
shiftLeft(LH, n/2)), LL)`, with `addhexstr` for `addHex` and `hexlsh` for
`shiftLeft`. -/
def recombine (junk : Nat → Char) (HH HL LH LL : List Char) (n : Nat) : Option (List Char) :=
  (addhexstr junk (hexlsh HH n) (hexlsh HL (n / 2))).bind (fun a1 =>
    (addhexstr junk a1 (hexlsh LH (n / 2))).bind (fun a2 => addhexstr junk a2 LL))

/-- The digit value the specification gives to a character: `'0'..'9'`
are 0..9, `'a'..'f'` and `'A'..'F'` are 10..15, any other character has
none. -/
def digitValue (c : Char) : Option Nat :=
  if '0'.toNat ≤ c.toNat ∧ c.toNat ≤ '9'.toNat then some (c.toNat - '0'.toNat)
  else if 'a'.toNat ≤ c.toNat ∧ c.toNat ≤ 'f'.toNat then some (c.toNat - 'a'.toNat + 10)
  else if 'A'.toNat ≤ c.toNat ∧ c.toNat ≤ 'F'.toNat then some (c.toNat - 'A'.toNat + 10)
  else none

/-! ## Platforms -/

/-- The platform does for a string of three lowercase digits what the
docstring of `add_leading_zero` says: the string is found with a `'0'` in
front. -/
def Platform.pads_three (p : Platform) : Prop :=
  ∀ s : List Char, s.length = 3 → (∀ c ∈ s, c ∈ lowerDigits) → p.odd_pad s = some ('0' :: s)

/-- A platform on which `add_leading_zero` does what its docstring says on
every string, with pipes of 65536 bytes. -/
def documented : Platform :=
  { junk := fun _ => NUL, odd_pad := fun s => some ('0' :: s), pipe_capacity := 65536 }

/-- A platform that ends the process at the copy between overlapping
objects: a build that checks the arguments of `strcpy`, or a `strcpy` that
copies byte by byte from the front, which overwrites the terminator before
it reads it and runs on until the process is killed. -/
def checking : Platform :=
  { junk := fun _ => NUL, odd_pad := fun _ => none, pipe_capacity := 65536 }

theorem hextodec_mem (c : Char) (h : hextodec c ≠ -1) : c ∈ hexDigits := by
  by_contra hc
  apply h
  simp only [hexDigits, lowerDigits, decimalDigits, lowerLetters, upperLetters, List.mem_append,
    List.mem_cons, List.mem_singleton, not_or, List.mem_nil_iff, or_false] at hc
  obtain ⟨⟨⟨h0, h1, h2, h3, h4, h5, h6, h7, h8, h9⟩, ha, hb, hc', hd, he, hf⟩,
    hA, hB, hC, hD, hE, hF⟩ := hc
  simp only [hextodec, h0, h1, h2, h3, h4, h5, h6, h7, h8, h9, ha, hb, hc', hd, he, hf, hA, hB, hC,
    hD, hE, hF, if_false]

theorem hexDigits_spec : ∀ c ∈ hexDigits,
    0 ≤ hextodec c ∧ hextodec c ≤ 15 ∧ hextodec c ≠ -1 ∧ c ≠ NUL ∧ c ≠ NL := by
  decide

theorem lowerDigits_sub : ∀ c ∈ lowerDigits, c ∈ hexDigits := by decide

theorem hextodec_eq_digitVal {c : Char} (h : c ∈ hexDigits) : hextodec c = (digitVal c : Int) := by
  have := (hexDigits_spec c h).1
  simp [digitVal, Int.toNat_of_nonneg this]

theorem digitVal_lt {c : Char} (h : c ∈ hexDigits) : digitVal c < 16 := by
  have h1 := (hexDigits_spec c h).2.1
  have h0 := (hexDigits_spec c h).1
  unfold digitVal
  omega

theorem dectohex_tmod : ∀ a : Fin 32, ∃ d, dectohex (Int.tmod (a.val : Int) 16) = some d ∧
    d ∈ lowerDigits ∧ digitVal d = a.val % 16 := by
  decide

/-! ## Values -/

theorem hexval_foldl (s : List Char) (a : Nat) :
    s.foldl (fun acc c => acc * 16 + digitVal c) a = a * 16 ^ s.length + hexval s := by
  induction s generalizing a with
  | nil => simp [hexval]
  | cons c cs ih =>
    simp only [List.foldl_cons, hexval, List.length_cons]
    rw [ih, ih (0 * 16 + digitVal c)]
    ring

theorem hexval_nil : hexval [] = 0 := rfl

theorem hexval_cons (c : Char) (s : List Char) :
    hexval (c :: s) = digitVal c * 16 ^ s.length + hexval s := by
  simp only [hexval, List.foldl_cons]
  rw [hexval_foldl]
  simp [hexval]

theorem hexval_append (s t : List Char) :
    hexval (s ++ t) = hexval s * 16 ^ t.length + hexval t := by
  induction s with
  | nil => simp [hexval_nil]
  | cons c cs ih =>
    simp only [List.cons_append, hexval_cons, ih, List.length_append]
    ring

theorem hexval_replicate_zero (n : Nat) : hexval (List.replicate n '0') = 0 := by
  induction n with
  | zero => rfl
  | succ n ih =>
    rw [List.replicate_succ, hexval_cons, ih]
    simp [digitVal, hextodec]

theorem hexval_hexlsh (s : List Char) (n : Nat) : hexval (hexlsh s n) = hexval s * 16 ^ n := by
  simp [hexlsh, hexval_append, hexval_replicate_zero]

theorem hexval_lt (s : List Char) (h : ∀ c ∈ s, c ∈ hexDigits) : hexval s < 16 ^ s.length := by
  induction s with
  | nil => simp [hexval_nil]
  | cons c cs ih =>
    have hc := digitVal_lt (h c (List.mem_cons_self _ _))
    have := ih (fun d hd => h d (List.mem_cons_of_mem _ hd))
    rw [hexval_cons, List.length_cons, pow_succ]
    nlinarith

theorem lsbval_append (s t : List Char) :
    lsbval (s ++ t) = lsbval s + 16 ^ s.length * lsbval t := by
  induction s with
  | nil => simp [lsbval]
  | cons c cs ih =>
    show digitVal c + 16 * lsbval (cs ++ t) = _
    rw [ih]
    simp only [lsbval, List.length_cons, pow_succ]
    ring

theorem hexval_reverse (s : List Char) : hexval s.reverse = lsbval s := by
  induction s with
  | nil => rfl
  | cons c cs ih =>
    rw [List.reverse_cons, hexval_append, ih]
    simp [lsbval, hexval_cons, hexval_nil]
    ring

theorem lsbval_reverse (s : List Char) : lsbval s.reverse = hexval s := by
  rw [← hexval_reverse, List.reverse_reverse]

/-! ## The loop of addhexstr -/

theorem addInv_init (junk : Nat → Char) : AddInv (addhexstr_init junk) := by
  constructor <;> simp [addhexstr_init]
  intro j hj
  simp [hj]

theorem addhexstr_step_spec (c1 c2 : Char) (st : AddState) (h1 : c1 ∈ hexDigits)
    (h2 : c2 ∈ hexDigits) (inv : AddInv st) :
    ∃ d st', addhexstr_step c1 c2 st = some st' ∧ d ∈ lowerDigits ∧ AddInv st' ∧
      st'.buffer_counter = st.buffer_counter + 1 ∧ st'.out_buffer st.buffer_counter = d ∧
      (∀ j, j < st.buffer_counter → st'.out_buffer j = st.out_buffer j) ∧
      (digitVal d : Int) + 16 * st'.carry = digitVal c1 + digitVal c2 + st.carry := by
  have e1 := hextodec_eq_digitVal h1
  have e2 := hextodec_eq_digitVal h2
  have l1 := digitVal_lt h1
  have l2 := digitVal_lt h2
  have hc := inv.carry
  obtain ⟨a, ha⟩ : ∃ a : Nat, hextodec c1 + hextodec c2 + st.carry = (a : Int) ∧ a < 32 := by
    rcases hc with hc | hc
    · exact ⟨digitVal c1 + digitVal c2, by rw [e1, e2, hc]; push_cast; ring, by omega⟩
    · exact ⟨digitVal c1 + digitVal c2 + 1, by rw [e1, e2, hc]; push_cast; ring, by omega⟩
  obtain ⟨d, hd, hdl, hdv⟩ := dectohex_tmod ⟨a, ha.2⟩
  simp only at hd hdv
  have hs : addhexstr_step c1 c2 st = some
      { out_buffer := store (store (if st.buffer_counter = st.out_buffer_len then
            { st with
              out_buffer_len := 2 * st.out_buffer_len
              out_buffer := memset st.out_buffer st.buffer_counter NUL 4 }
          else st).out_buffer st.buffer_counter d) (st.buffer_counter + 1) NUL
        out_buffer_len := (if st.buffer_counter = st.out_buffer_len then
            { st with
              out_buffer_len := 2 * st.out_buffer_len
              out_buffer := memset st.out_buffer st.buffer_counter NUL 4 }
          else st).out_buffer_len
        buffer_counter := st.buffer_counter + 1
        carry := if (a : Int) > 15 then 1 else 0 } := by
    simp only [addhexstr_step, ha.1, hd]
  refine ⟨d, _, hs, hdl, ?_, ?_, ?_, ?_, ?_⟩
  · constructor
    · simp only
      split_ifs with h
      · have := inv.big
        simp only
        omega
      · have := inv.le
        omega
    · simp only
      split_ifs with h
      · have := inv.big
        simp only
        omega
      · exact inv.big
    · intro j hj1 hj2
      simp only at hj1
      simp only [store]
      by_cases e : j = st.buffer_counter + 1
      · rw [if_pos e]
      · rw [if_neg e, if_neg (by omega)]
        split_ifs
        · simp only [memset]
          split_ifs
          · rfl
          · exact inv.zeros j (by omega) hj2
        · exact inv.zeros j (by omega) hj2
    · simp [store]
    · simp only
      split_ifs <;> simp
  · rfl
  · simp only [store]
    simp
  · intro j hj
    simp only [store]
    rw [if_neg (by omega), if_neg (by omega)]
    split_ifs
    · simp only [memset]
      rw [if_neg (by omega)]
    · rfl
  · simp only
    rw [← e1, ← e2, ha.1, hdv]
    split_ifs with h
    · push_cast
      omega
    · push_cast
      omega

theorem bytes_zero (mem : Nat → Char) (s : Nat) : bytes mem s 0 = [] := rfl

theorem bytes_length (mem : Nat → Char) (s k : Nat) : (bytes mem s k).length = k := by
  simp [bytes]

theorem bytes_succ (mem : Nat → Char) (s k : Nat) :
    bytes mem s (k + 1) = mem s :: bytes mem (s + 1) k := by
  simp only [bytes, List.range_succ_eq_map, List.map_cons, List.map_map, Nat.add_zero]
  congr 1
  apply List.map_congr_left
  intro i _
  simp only [Function.comp]
  congr 1
  omega

theorem bytes_succ_last (mem : Nat → Char) (s k : Nat) :
    bytes mem s (k + 1) = bytes mem s k ++ [mem (s + k)] := by
  simp [bytes, List.range_succ]

theorem bytes_append (mem : Nat → Char) (s a b : Nat) :
    bytes mem s (a + b) = bytes mem s a ++ bytes mem (s + a) b := by
  induction a generalizing s with
  | zero => simp [bytes_zero]
  | succ a ih =>
    rw [show a + 1 + b = (a + b) + 1 by omega, bytes_succ, bytes_succ, ih]
    simp only [List.cons_append]
    congr 3
    omega

theorem bytes_congr (m1 m2 : Nat → Char) (s k : Nat)
    (h : ∀ i, s ≤ i → i < s + k → m1 i = m2 i) : bytes m1 s k = bytes m2 s k := by
  simp only [bytes]
  apply List.map_congr_left
  intro i hi
  rw [List.mem_range] at hi
  exact h _ (by omega) (by omega)

theorem lsbval_headD_tail (r : List Char) :
    lsbval r = digitVal (r.headD '0') + 16 * lsbval r.tail := by
  cases r with
  | nil => simp [lsbval, digitVal, hextodec]
  | cons c cs => simp [lsbval]

theorem headD_mem_hexDigits (r : List Char) (h : ∀ c ∈ r, c ∈ hexDigits) :
    r.headD '0' ∈ hexDigits := by
  cases r with
  | nil => decide
  | cons c cs => exact h c (List.mem_cons_self _ _)

theorem tail_mem_hexDigits (r : List Char) (h : ∀ c ∈ r, c ∈ hexDigits) :
    ∀ c ∈ r.tail, c ∈ hexDigits := fun c hc => h c (List.mem_of_mem_tail hc)

theorem addhexstr_loop_spec : ∀ (k : Nat) (r1 r2 : List Char) (st : AddState),
    (∀ c ∈ r1, c ∈ hexDigits) → (∀ c ∈ r2, c ∈ hexDigits) → r1.length ≤ k → r2.length ≤ k →
    AddInv st →
    ∃ st', addhexstr_loop k r1 r2 st = some st' ∧ AddInv st' ∧
      st'.buffer_counter = st.buffer_counter + k ∧
      (∀ c ∈ bytes st'.out_buffer st.buffer_counter k, c ∈ lowerDigits) ∧
      (∀ j, j < st.buffer_counter → st'.out_buffer j = st.out_buffer j) ∧
      (lsbval (bytes st'.out_buffer st.buffer_counter k) : Int) + 16 ^ k * st'.carry =
        lsbval r1 + lsbval r2 + st.carry := by
  intro k
  induction k with
  | zero =>
    intro r1 r2 st _ _ l1 l2 inv
    have e1 : r1 = [] := List.length_eq_zero.mp (by omega)
    have e2 : r2 = [] := List.length_eq_zero.mp (by omega)
    subst e1 e2
    exact ⟨st, rfl, inv, rfl, by simp [bytes_zero], fun _ _ => rfl, by simp [bytes_zero, lsbval]⟩
  | succ k ih =>
    intro r1 r2 st v1 v2 l1 l2 inv
    obtain ⟨d, st1, hs, hd, inv1, hc1, hb1, hp1, hv1⟩ :=
      addhexstr_step_spec (r1.headD '0') (r2.headD '0') st (headD_mem_hexDigits r1 v1)
        (headD_mem_hexDigits r2 v2) inv
    obtain ⟨st', hl, inv', hc', hlow, hp', hv'⟩ :=
      ih r1.tail r2.tail st1 (tail_mem_hexDigits r1 v1) (tail_mem_hexDigits r2 v2)
        (by rw [List.length_tail]; omega) (by rw [List.length_tail]; omega) inv1
    have hhead : st'.out_buffer st.buffer_counter = d := by
      rw [hp' _ (by omega), hb1]
    refine ⟨st', ?_, inv', by omega, ?_, ?_, ?_⟩
    · simp only [addhexstr_loop, hs, hl]
    · rw [bytes_succ, hhead, ← hc1]
      intro c hc
      rcases List.mem_cons.mp hc with rfl | hc
      · exact hd
      · exact hlow c hc
    · intro j hj
      rw [hp' j (by omega), hp1 j hj]
    · rw [bytes_succ, hhead, ← hc1, lsbval_headD_tail r1, lsbval_headD_tail r2]
      simp only [lsbval]
      push_cast
      rw [pow_succ]
      linear_combination hv1 + 16 * hv'

/-! ## Reading the buffer back -/

theorem find_range (p : Nat → Bool) : ∀ (L size : Nat), L < size →
    (∀ i, i < L → p i = false) → p L = true → (List.range size).find? p = some L := by
  intro L
  induction L generalizing p with
  | zero =>
    intro size hs _ h0
    obtain ⟨s, rfl⟩ : ∃ s, size = s + 1 := ⟨size - 1, by omega⟩
    rw [List.range_succ_eq_map, List.find?_cons, h0]
  | succ l ih =>
    intro size hs hlt hL
    obtain ⟨s, rfl⟩ : ∃ s, size = s + 1 := ⟨size - 1, by omega⟩
    rw [List.range_succ_eq_map, List.find?_cons, hlt 0 (by omega), List.find?_map]
    have := ih (p ∘ Nat.succ) s (by omega) (fun i hi => hlt (i + 1) (by omega)) hL
    simp only [this, Option.map_some']

theorem cstr_append_nul (xs rest : List Char) (h : ∀ c ∈ xs, c ≠ NUL) :
    cstr (xs ++ NUL :: rest) = xs := by
  induction xs with
  | nil => simp [cstr]
  | cons c cs ih =>
    have hc : c ≠ NUL := h c (List.mem_cons_self _ _)
    have := ih (fun d hd => h d (List.mem_cons_of_mem _ hd))
    simp only [cstr, List.cons_append, List.takeWhile_cons, bne_iff_ne, ne_eq, hc, not_false_eq_true,
      if_true] at this ⊢
    rw [this]

theorem cstr_of_no_nul (xs : List Char) (h : ∀ c ∈ xs, c ≠ NUL) : cstr xs = xs := by
  induction xs with
  | nil => simp [cstr]
  | cons c cs ih =>
    have hc : c ≠ NUL := h c (List.mem_cons_self _ _)
    have := ih (fun d hd => h d (List.mem_cons_of_mem _ hd))
    simp only [cstr, List.takeWhile_cons, bne_iff_ne, ne_eq, hc, not_false_eq_true, if_true] at this ⊢
    rw [this]

theorem readstr_eq (mem : Nat → Char) (size : Nat) : readstr mem size = cstr (bytes mem 0 size) := by
  simp [readstr, bytes]

theorem mem_bytes {mem : Nat → Char} {s k : Nat} {c : Char} (h : c ∈ bytes mem s k) :
    ∃ i, i < k ∧ mem (s + i) = c := by
  simp only [bytes, List.mem_map, List.mem_range] at h
  exact h

theorem bytes_reverse (out m : Nat → Char) (L : Nat) (h : ∀ i, i < L → m i = out (L - 1 - i)) :
    bytes m 0 L = (bytes out 0 L).reverse := by
  apply List.ext_getElem
  · simp [bytes_length]
  · intro i h1 h2
    rw [bytes_length] at h1
    simp only [bytes, List.getElem_map, List.getElem_range, List.getElem_reverse, List.length_map,
      List.length_range, Nat.zero_add]
    exact h i h1

theorem strlen_spec (out : Nat → Char) (L size : Nat) (hL : L < size)
    (hne : ∀ i, i < L → out i ≠ NUL) (hterm : out L = NUL) : strlen out size = some L := by
  apply find_range _ L size hL
  · intro i hi
    simpa using hne i hi
  · simpa using hterm

theorem revarr_spec (out : Nat → Char) (L : Nat) (hne : ∀ i, i < L → out i ≠ NUL) :
    (∀ i, i < L → revarr out (L + 1) i = out (L - 1 - i)) ∧ revarr out (L + 1) L = NUL := by
  have hfind : (List.range (L + 1)).find?
      (fun i => (if i < L + 1 - 1 then out (L + 1 - 2 - i) else NUL) == NUL) = some L := by
    apply find_range _ L (L + 1) (by omega)
    · intro i hi
      simp only [Nat.add_sub_cancel, hi, if_true]
      simpa using hne (L + 1 - 2 - i) (by omega)
    · simp
  constructor
  · intro i hi
    simp only [revarr, hfind, Option.getD_some]
    rw [if_pos (by omega), if_pos (by omega)]
    have e : L + 1 - 2 - i = L - 1 - i := by omega
    rw [e]
  · simp only [revarr, hfind, Option.getD_some]
    simp

theorem readback_spec (out : Nat → Char) (L size : Nat) (hL : L < size)
    (hne : ∀ i, i < L → out i ≠ NUL) :
    readstr (store (revarr out (L + 1)) L NUL) size = (bytes out 0 L).reverse := by
  obtain ⟨hr, _⟩ := revarr_spec out L hne
  rw [readstr_eq, show size = L + (1 + (size - L - 1)) by omega, bytes_append, bytes_append]
  have h1 : bytes (store (revarr out (L + 1)) L NUL) (0 + L) 1 = [NUL] := by
    rw [bytes_succ, bytes_zero]
    simp [store]
  rw [h1]
  have h2 : bytes (store (revarr out (L + 1)) L NUL) 0 L = (bytes out 0 L).reverse := by
    apply bytes_reverse
    intro i hi
    simp only [store]
    rw [if_neg (by omega)]
    exact hr i hi
  rw [h2]
  simp only [List.singleton_append]
  apply cstr_append_nul
  intro c hc
  rw [List.mem_reverse] at hc
  obtain ⟨i, hi, rfl⟩ := mem_bytes hc
  simpa using hne i hi

/-! ## addhexstr is exact when the terminator is in place -/

theorem lowerDigits_ne_nul {c : Char} (h : c ∈ lowerDigits) : c ≠ NUL :=
  (hexDigits_spec c (lowerDigits_sub c h)).2.2.2.1

theorem lsbval_lt (s : List Char) (h : ∀ c ∈ s, c ∈ hexDigits) : lsbval s < 16 ^ s.length := by
  have := hexval_lt s.reverse (fun c hc => h c (List.mem_reverse.mp hc))
  rwa [hexval_reverse, List.length_reverse] at this

theorem addhexstr_spec (junk : Nat → Char) (s1 s2 : List Char)
    (v1 : ∀ c ∈ s1, c ∈ hexDigits) (v2 : ∀ c ∈ s2, c ∈ hexDigits)
    (h : max s1.length s2.length ≤ 67 ∨ hexval s1 + hexval s2 < 16 ^ max s1.length s2.length) :
    ∃ r, addhexstr junk s1 s2 = some r ∧ (∀ c ∈ r, c ∈ lowerDigits) ∧
      hexval r = hexval s1 + hexval s2 ∧
      r.length = (if hexval s1 + hexval s2 < 16 ^ max s1.length s2.length
        then max s1.length s2.length else max s1.length s2.length + 1) := by
  obtain ⟨st, hloop, inv, hcnt, hlow, _, hval⟩ :=
    addhexstr_loop_spec (max s1.length s2.length) s1.reverse s2.reverse (addhexstr_init junk)
      (fun c hc => v1 c (List.mem_reverse.mp hc)) (fun c hc => v2 c (List.mem_reverse.mp hc))
      (by simp) (by simp) (addInv_init junk)
  generalize hm : max s1.length s2.length = m at *
  have hc0 : (addhexstr_init junk).buffer_counter = 0 := rfl
  have hcar0 : (addhexstr_init junk).carry = 0 := rfl
  rw [hc0] at hlow hval
  rw [hc0, Nat.zero_add] at hcnt
  rw [hcar0, lsbval_reverse, lsbval_reverse] at hval
  have hds := lsbval_lt (bytes st.out_buffer 0 m) (fun c hc => lowerDigits_sub c (hlow c hc))
  rw [bytes_length] at hds
  have hne : ∀ i, i < m → st.out_buffer i ≠ NUL := by
    intro i hi
    apply lowerDigits_ne_nul
    apply hlow
    simp only [bytes, List.mem_map, List.mem_range]
    exact ⟨i, hi, by simp⟩
  have hle := inv.le
  rcases inv.carry with hcar | hcar
  · -- no final carry
    rw [hcar] at hval
    have hsum : hexval s1 + hexval s2 = lsbval (bytes st.out_buffer 0 m) := by
      have : ((lsbval (bytes st.out_buffer 0 m) : Nat) : Int) = ((hexval s1 + hexval s2 : Nat) : Int) := by
        push_cast
        linarith
      exact (Int.ofNat_inj.mp this).symm
    have hterm : st.out_buffer m = NUL := by
      have := inv.term
      rwa [hcnt] at this
    have hlen := strlen_spec st.out_buffer m (st.out_buffer_len + 5) (by omega) hne hterm
    refine ⟨(bytes st.out_buffer 0 m).reverse, ?_, ?_, ?_, ?_⟩
    · simp only [addhexstr, hm, hloop, hcar, hcnt]
      simp only [zero_ne_one, if_false, hlen]
      rw [readback_spec st.out_buffer m _ (by omega) hne]
    · intro c hc
      exact hlow c (List.mem_reverse.mp hc)
    · rw [hexval_reverse, hsum]
    · rw [List.length_reverse, bytes_length, if_pos (by omega)]
  · -- final carry
    rw [hcar] at hval
    have hsum : hexval s1 + hexval s2 = lsbval (bytes st.out_buffer 0 m) + 16 ^ m := by
      have : ((lsbval (bytes st.out_buffer 0 m) + 16 ^ m : Nat) : Int) =
          ((hexval s1 + hexval s2 : Nat) : Int) := by
        push_cast
        linarith
      exact (Int.ofNat_inj.mp this).symm
    have hm67 : m ≤ 67 := by
      rcases h with h | h
      · exact h
      · omega
    have hne' : ∀ i, i < m + 1 → store st.out_buffer m '1' i ≠ NUL := by
      intro i hi
      simp only [store]
      split_ifs with e
      · decide
      · exact hne i (by omega)
    have hterm : store st.out_buffer m '1' (m + 1) = NUL := by
      simp only [store]
      rw [if_neg (by omega)]
      exact inv.zeros (m + 1) (by omega) (by omega)
    have hlen := strlen_spec (store st.out_buffer m '1') (m + 1) (st.out_buffer_len + 5)
      (by omega) hne' hterm
    have hb : bytes (store st.out_buffer m '1') 0 (m + 1) = bytes st.out_buffer 0 m ++ ['1'] := by
      rw [bytes_succ_last]
      congr 1
      · apply bytes_congr
        intro i _ hi
        simp only [store]
        rw [if_neg (by omega)]
      · simp [store]
    refine ⟨(bytes st.out_buffer 0 m ++ ['1']).reverse, ?_, ?_, ?_, ?_⟩
    · simp only [addhexstr, hm, hloop, hcar, hcnt]
      simp only [if_true, hlen]
      rw [readback_spec (store st.out_buffer m '1') (m + 1) _ (by omega) hne', hb]
    · intro c hc
      rw [List.mem_reverse, List.mem_append] at hc
      rcases hc with hc | hc
      · exact hlow c hc
      · rw [List.mem_singleton] at hc
        subst hc
        decide
    · rw [hexval_reverse, lsbval_append, bytes_length, hsum]
      simp [lsbval, digitVal, hextodec]
    · rw [List.length_reverse, List.length_append, bytes_length, if_neg (by omega)]
      rfl

/-! ## Lines, buffers and pipes -/

theorem hexDigits_ne_nl {c : Char} (h : c ∈ hexDigits) : c ≠ NL := (hexDigits_spec c h).2.2.2.2

theorem hexDigits_ne_nul {c : Char} (h : c ∈ hexDigits) : c ≠ NUL := (hexDigits_spec c h).2.2.2.1

theorem input_string_line (A rest : List Char) (h : ∀ c ∈ A, c ≠ NL) :
    input_string (A ++ NL :: rest) = (A, rest) := by
  induction A with
  | nil => simp [input_string]
  | cons c cs ih =>
    have hc : c ≠ NL := h c (List.mem_cons_self _ _)
    have := ih (fun d hd => h d (List.mem_cons_of_mem _ hd))
    simp only [input_string, Prod.mk.injEq] at this
    simp [input_string, hc, this.1, this.2]

theorem sanitize_one_of_no_nl (s : List Char) (h : ∀ c ∈ s, c ≠ NL) : sanitize_one s = s := by
  unfold sanitize_one
  rw [if_neg]
  intro hl
  exact h NL (List.mem_of_getLast?_eq_some hl) rfl

theorem sanitize_one_append_nl (s : List Char) : sanitize_one (s ++ [NL]) = s := by
  simp [sanitize_one]

theorem validate_input_none (A B : List Char) (hA : ∀ c ∈ A, c ∈ hexDigits)
    (hB : ∀ c ∈ B, c ∈ hexDigits) (hlen : A.length = B.length) (hpos : 0 < A.length) :
    validate_input A B = none := by
  unfold validate_input
  rw [if_neg (by omega), if_neg (by omega), if_neg]
  simp only [List.any_eq_true, not_exists, not_and, Bool.or_eq_true, beq_iff_eq, not_or]
  intro p hp
  exact ⟨(hexDigits_spec _ (hA _ (List.of_mem_zip hp).1)).2.2.1,
    (hexDigits_spec _ (hB _ (List.of_mem_zip hp).2)).2.2.1⟩

/-- What a worker does with two valid input lines: the input stage returns
the lines unchanged and validation passes. -/
theorem worker_valid (p : Platform) (fuel : Nat) (A B : List Char)
    (hA : ∀ c ∈ A, c ∈ hexDigits) (hB : ∀ c ∈ B, c ∈ hexDigits) (hlen : A.length = B.length)
    (hpos : 0 < A.length) :
    worker p (fuel + 1) (send_child_data A B) =
      if A.length = 1 then some (print_product_and_exit A B)
      else if A.length % 2 ≠ 0 ∨ B.length % 2 ≠ 0 then some (Run.error [] Diag.input_is_not_even)
      else if p.pipe_capacity <
          (send_child_data (A.take (A.length / 2)) (B.take (A.length / 2))).length then
        some Run.blocked
      else
        match worker p fuel (send_child_data (A.take (A.length / 2)) (B.take (A.length / 2))),
            worker p fuel
              (send_child_data (A.take (A.length / 2)) ((B.drop (A.length / 2)).take (A.length / 2))),
            worker p fuel
              (send_child_data ((A.drop (A.length / 2)).take (A.length / 2)) (B.take (A.length / 2))),
            worker p fuel
              (send_child_data ((A.drop (A.length / 2)).take (A.length / 2))
                ((B.drop (A.length / 2)).take (A.length / 2))) with
        | some c0, some c1, some c2, some c3 => some (collect p A.length c0 c1 c2 c3)
        | _, _, _, _ => none := by
  have hAnl : ∀ c ∈ A, c ≠ NL := fun c hc => hexDigits_ne_nl (hA c hc)
  have hBnl : ∀ c ∈ B, c ≠ NL := fun c hc => hexDigits_ne_nl (hB c hc)
  have i1 : input_string (send_child_data A B) = (A, B ++ [NL]) := by
    have := input_string_line A (B ++ [NL]) hAnl
    simpa [send_child_data] using this
  have i2 : input_string (B ++ [NL]) = (B, []) := input_string_line B [] hBnl
  have cA : cstr A = A := cstr_of_no_nul A (fun c hc => hexDigits_ne_nul (hA c hc))
  have cB : cstr B = B := cstr_of_no_nul B (fun c hc => hexDigits_ne_nul (hB c hc))
  simp only [worker, i1, i2, cA, cB, sanitize_input, sanitize_one_of_no_nl A hAnl,
    sanitize_one_of_no_nl B hBnl, validate_input_none A B hA hB hlen hpos]

/-- The number of bytes `send_child_data` writes for the halves of two
operands of even length `n`: `n + 2`. -/
theorem send_child_data_length (A B : List Char) (hlen : A.length = B.length)
    (heven : A.length % 2 = 0) :
    (send_child_data (A.take (A.length / 2)) (B.take (A.length / 2))).length = A.length + 2 := by
  simp only [send_child_data, List.length_append, List.length_take, List.length_singleton,
    List.length_nil]
  omega

/-- A worker on two valid lines of even length whose halves do not fit
into a pipe waits in its first `write` for ever. -/
theorem worker_blocks (p : Platform) (fuel : Nat) (A B : List Char)
    (hA : ∀ c ∈ A, c ∈ hexDigits) (hB : ∀ c ∈ B, c ∈ hexDigits) (hlen : A.length = B.length)
    (h2 : 2 ≤ A.length) (heven : A.length % 2 = 0) (hcap : p.pipe_capacity < A.length + 2) :
    worker p (fuel + 1) (send_child_data A B) = some Run.blocked := by
  rw [worker_valid p fuel A B hA hB hlen (by omega), if_neg (by omega),
    if_neg (by omega), send_child_data_length A B hlen heven, if_pos hcap]

/-- A worker on two valid lines of even length whose halves fit into a
pipe starts its four children and goes on with their runs. -/
theorem worker_fits (p : Platform) (fuel : Nat) (A B : List Char)
    (hA : ∀ c ∈ A, c ∈ hexDigits) (hB : ∀ c ∈ B, c ∈ hexDigits) (hlen : A.length = B.length)
    (h2 : 2 ≤ A.length) (heven : A.length % 2 = 0) (hcap : A.length + 2 ≤ p.pipe_capacity) :
    worker p (fuel + 1) (send_child_data A B) =
      match worker p fuel (send_child_data (A.take (A.length / 2)) (B.take (A.length / 2))),
          worker p fuel
            (send_child_data (A.take (A.length / 2)) ((B.drop (A.length / 2)).take (A.length / 2))),
          worker p fuel
            (send_child_data ((A.drop (A.length / 2)).take (A.length / 2)) (B.take (A.length / 2))),
          worker p fuel
            (send_child_data ((A.drop (A.length / 2)).take (A.length / 2))
              ((B.drop (A.length / 2)).take (A.length / 2))) with
      | some c0, some c1, some c2, some c3 => some (collect p A.length c0 c1 c2 c3)
      | _, _, _, _ => none := by
  rw [worker_valid p fuel A B hA hB hlen (by omega), if_neg (by omega),
    if_neg (by omega), send_child_data_length A B hlen heven, if_neg (by omega)]

theorem fgets_go_line (line : List Char) (h : ∀ c ∈ line, c ≠ NL) :
    ∀ k, line.length ≤ k →
      fgets.go k (line ++ [NL]) = if line.length < k then line ++ [NL] else line := by
  induction line with
  | nil =>
    intro k _
    cases k with
    | zero => simp [fgets.go]
    | succ k => simp [fgets.go]
  | cons c cs ih =>
    intro k hk
    have hc : c ≠ NL := h c (List.mem_cons_self _ _)
    obtain ⟨k', rfl⟩ : ∃ k', k = k' + 1 := ⟨k - 1, by simp at hk; omega⟩
    simp only [List.length_cons] at hk
    have := ih (fun d hd => h d (List.mem_cons_of_mem _ hd)) k' (by omega)
    simp only [List.cons_append, fgets.go, hc, if_false, this, List.length_cons]
    by_cases hlt : cs.length < k'
    · simp [hlt, this]
    · simp [hlt, this]

theorem read_result_line (nhalf : Nat) (line : List Char) (h : ∀ c ∈ line, c ∈ lowerDigits)
    (hlen : line.length ≤ nhalf * 2) :
    read_result nhalf (Run.success (line ++ [NL])) = some line := by
  have hnl : ∀ c ∈ line, c ≠ NL := fun c hc => hexDigits_ne_nl (lowerDigits_sub c (h c hc))
  have hnul : ∀ c ∈ line, c ≠ NUL := fun c hc => lowerDigits_ne_nul (h c hc)
  have hg := fgets_go_line line hnl (nhalf * 2) hlen
  have hf : fgets (nhalf * 2 + 1) (line ++ [NL]) = some (fgets.go (nhalf * 2) (line ++ [NL])) := by
    cases line with
    | nil => rfl
    | cons c cs => rfl
  simp only [read_result, Run.stdout, hf, hg]
  by_cases hlt : line.length < nhalf * 2
  · rw [if_pos hlt]
    have : cstr (line ++ [NL]) = line ++ [NL] := by
      apply cstr_of_no_nul
      intro c hc
      rcases List.mem_append.mp hc with hc | hc
      · exact hnul c hc
      · rw [List.mem_singleton] at hc
        subst hc
        decide
    rw [this, sanitize_one_append_nl]
  · rw [if_neg hlt, cstr_of_no_nul line hnul, sanitize_one_of_no_nl line hnl]

theorem read_result_error (nhalf : Nat) (d : Diag) : read_result nhalf (Run.error [] d) = none := rfl

theorem print_product_spec : ∀ a ∈ hexDigits, ∀ b ∈ hexDigits,
    print_product_and_exit [a] [b] = Run.success (printf_x (hextodec a * hextodec b) ++ [NL]) ∧
    (∀ c ∈ printf_x (hextodec a * hextodec b), c ∈ lowerDigits) ∧
    hexval (printf_x (hextodec a * hextodec b)) = digitVal a * digitVal b ∧
    ((printf_x (hextodec a * hextodec b)).length = 1 ∨
      (printf_x (hextodec a * hextodec b)).length = 2) := by
  decide

/-! ## Recombination in the parent -/

theorem hexlsh_mem (s : List Char) (n : Nat) (h : ∀ c ∈ s, c ∈ hexDigits) :
    ∀ c ∈ hexlsh s n, c ∈ hexDigits := by
  intro c hc
  simp only [hexlsh, List.mem_append, List.mem_replicate] at hc
  rcases hc with hc | ⟨_, rfl⟩
  · exact h c hc
  · decide

theorem hexlsh_length (s : List Char) (n : Nat) : (hexlsh s n).length = s.length + n := by
  simp [hexlsh]

/-- An addition whose operands fit in `W` digits and whose sum is below `16 ^ W`. -/
theorem addhexstr_width (junk : Nat → Char) (W : Nat) (s1 s2 : List Char)
    (v1 : ∀ c ∈ s1, c ∈ hexDigits) (v2 : ∀ c ∈ s2, c ∈ hexDigits)
    (hW : max s1.length s2.length ≤ W) (hsum : hexval s1 + hexval s2 < 16 ^ W)
    (h : max s1.length s2.length ≤ 67 ∨ max s1.length s2.length = W) :
    ∃ r, addhexstr junk s1 s2 = some r ∧ (∀ c ∈ r, c ∈ lowerDigits) ∧
      hexval r = hexval s1 + hexval s2 ∧ max s1.length s2.length ≤ r.length ∧ r.length ≤ W := by
  obtain ⟨r, hr, hlow, hval, hlen⟩ := addhexstr_spec junk s1 s2 v1 v2 (by
    rcases h with h | h
    · exact Or.inl h
    · exact Or.inr (by rw [h]; exact hsum))
  refine ⟨r, hr, hlow, hval, ?_, ?_⟩
  · rw [hlen]
    split_ifs <;> omega
  · rw [hlen]
    split_ifs with hlt
    · exact hW
    · have hge : 16 ^ max s1.length s2.length ≤ hexval s1 + hexval s2 := not_lt.mp hlt
      have : 16 ^ max s1.length s2.length < 16 ^ W := lt_of_le_of_lt hge hsum
      have := (Nat.pow_lt_pow_iff_right (by norm_num : 1 < 16)).mp this
      omega

/-- A string of even length comes back from `add_leading_zero` as it is. -/
theorem add_leading_zero_even (p : Platform) (s : List Char) (h : s.length % 2 = 0) :
    add_leading_zero p s = some s := by
  unfold add_leading_zero
  rw [if_neg (by omega)]

/-- On a platform that pads strings of three digits, `add_leading_zero`
returns a string of even length and of the same value, for a string of
three digits and for one of even length. -/
theorem add_leading_zero_spec (p : Platform) (hp : p.pads_three) (s : List Char)
    (hl : ∀ c ∈ s, c ∈ lowerDigits) (hs : s.length = 3 ∨ s.length % 2 = 0) :
    ∃ line, add_leading_zero p s = some line ∧ hexval line = hexval s ∧
      (∀ c ∈ line, c ∈ lowerDigits) ∧ line.length = s.length + s.length % 2 := by
  rcases hs with h3 | he
  · refine ⟨'0' :: s, ?_, ?_, ?_, ?_⟩
    · unfold add_leading_zero
      rw [if_pos (by omega)]
      exact hp s h3 hl
    · rw [hexval_cons]
      simp [digitVal, hextodec]
    · intro c hc
      rcases List.mem_cons.mp hc with rfl | hc
      · decide
      · exact hl c hc
    · simp only [List.length_cons]
      omega
  · exact ⟨s, add_leading_zero_even p s he, rfl, hl, by omega⟩

/-- A child that ended is passed by the loop of `fgets` calls when its
line can be read. -/
theorem fgets_blocks_cons (nhalf : Nat) (c : Run) (cs : List Run) (h : c ≠ Run.blocked) :
    fgets_blocks nhalf (c :: cs) = ((read_result nhalf c).isSome && fgets_blocks nhalf cs) := by
  cases c
  · rfl
  · rfl
  · rfl
  · exact absurd rfl h

/-- A child whose line can be read has ended. -/
theorem read_result_not_blocked (nhalf : Nat) (c : Run) (s : List Char)
    (h : read_result nhalf c = some s) : c ≠ Run.blocked := by
  intro hc
  subst hc
  simp [read_result, Run.stdout, fgets] at h

/-- When the four lines can be read the loop of `fgets` calls returns. -/
theorem fgets_blocks_of_read (nhalf : Nat) (c0 c1 c2 c3 : Run) (s0 s1 s2 s3 : List Char)
    (h0 : read_result nhalf c0 = some s0) (h1 : read_result nhalf c1 = some s1)
    (h2 : read_result nhalf c2 = some s2) (h3 : read_result nhalf c3 = some s3) :
    fgets_blocks nhalf [c0, c1, c2, c3] = false := by
  rw [fgets_blocks_cons nhalf c0 _ (read_result_not_blocked nhalf c0 s0 h0),
    fgets_blocks_cons nhalf c1 _ (read_result_not_blocked nhalf c1 s1 h1),
    fgets_blocks_cons nhalf c2 _ (read_result_not_blocked nhalf c2 s2 h2),
    fgets_blocks_cons nhalf c3 _ (read_result_not_blocked nhalf c3 s3 h3)]
  simp [fgets_blocks]

theorem collect_spec (p : Platform) (hp : p.pads_three) (h : Nat) (l0 l1 l2 l3 : List Char)
    (low0 : ∀ c ∈ l0, c ∈ lowerDigits) (low1 : ∀ c ∈ l1, c ∈ lowerDigits)
    (low2 : ∀ c ∈ l2, c ∈ lowerDigits) (low3 : ∀ c ∈ l3, c ∈ lowerDigits)
    (len0 : l0.length ≤ 2 * h) (len1 : l1.length ≤ 2 * h) (len2 : l2.length ≤ 2 * h)
    (len3 : l3.length ≤ 2 * h)
    (hcase : (h = 1 ∧ 1 ≤ l0.length) ∨ (1 ≤ h ∧ l0.length = 2 * h))
    (hT : hexval l0 * 16 ^ (2 * h) + hexval l1 * 16 ^ h + hexval l2 * 16 ^ h + hexval l3
        < 16 ^ (4 * h)) :
    ∃ line, collect p (2 * h) (Run.success (l0 ++ [NL])) (Run.success (l1 ++ [NL]))
        (Run.success (l2 ++ [NL])) (Run.success (l3 ++ [NL])) = Run.success (line ++ [NL]) ∧
      (∀ c ∈ line, c ∈ lowerDigits) ∧
      hexval line = hexval l0 * 16 ^ (2 * h) + hexval l1 * 16 ^ h + hexval l2 * 16 ^ h + hexval l3 ∧
      line.length = 4 * h := by
  have hx0 : ∀ c ∈ l0, c ∈ hexDigits := fun c hc => lowerDigits_sub c (low0 c hc)
  have hx1 : ∀ c ∈ l1, c ∈ hexDigits := fun c hc => lowerDigits_sub c (low1 c hc)
  have hx2 : ∀ c ∈ l2, c ∈ hexDigits := fun c hc => lowerDigits_sub c (low2 c hc)
  have hx3 : ∀ c ∈ l3, c ∈ hexDigits := fun c hc => lowerDigits_sub c (low3 c hc)
  have hsmall : 4 * h ≤ 67 ∨ l0.length = 2 * h := by
    rcases hcase with ⟨h1, _⟩ | ⟨_, h2⟩
    · left; omega
    · right; exact h2
  -- first addition
  obtain ⟨a1, e1, lw1, val1, lo1, up1⟩ := addhexstr_width p.junk (4 * h) (hexlsh l0 (2 * h))
    (hexlsh l1 h) (hexlsh_mem _ _ hx0) (hexlsh_mem _ _ hx1)
    (by rw [hexlsh_length, hexlsh_length]; omega)
    (by rw [hexval_hexlsh, hexval_hexlsh]; omega)
    (by rw [hexlsh_length, hexlsh_length]; omega)
  rw [hexlsh_length, hexlsh_length] at lo1
  rw [hexval_hexlsh, hexval_hexlsh] at val1
  have hxa1 : ∀ c ∈ a1, c ∈ hexDigits := fun c hc => lowerDigits_sub c (lw1 c hc)
  -- second addition
  obtain ⟨a2, e2, lw2, val2, lo2, up2⟩ := addhexstr_width p.junk (4 * h) a1
    (hexlsh l2 h) hxa1 (hexlsh_mem _ _ hx2)
    (by rw [hexlsh_length]; omega)
    (by rw [hexval_hexlsh, val1]; omega)
    (by rw [hexlsh_length]; omega)
  rw [hexlsh_length] at lo2
  rw [hexval_hexlsh, val1] at val2
  have hxa2 : ∀ c ∈ a2, c ∈ hexDigits := fun c hc => lowerDigits_sub c (lw2 c hc)
  -- third addition
  obtain ⟨a3, e3, lw3, val3, lo3, up3⟩ := addhexstr_width p.junk (4 * h) a2 l3 hxa2 hx3
    (by omega) (by rw [val2]; omega) (by omega)
  rw [val2] at val3
  have hshape : a3.length = 3 ∨ a3.length % 2 = 0 := by
    rcases hcase with ⟨h1, h2⟩ | ⟨_, h2⟩
    · subst h1
      omega
    · right
      omega
  obtain ⟨line, pe, pv, pl, plen⟩ := add_leading_zero_spec p hp a3 lw3 hshape
  have hlen : line.length = 4 * h := by
    rw [plen]
    rcases hcase with ⟨h1, h2⟩ | ⟨_, h2⟩
    · subst h1
      have : a3.length = 3 ∨ a3.length = 4 := by omega
      rcases this with e | e <;> rw [e]
    · have : a3.length = 4 * h := by omega
      rw [this]
      omega
  refine ⟨line, ?_, pl, by rw [pv, val3], hlen⟩
  have hdiv : 2 * h / 2 = h := by omega
  have hmul : h * 2 = 2 * h := by omega
  have r0 := read_result_line h l0 low0 (by omega)
  have r1 := read_result_line h l1 low1 (by omega)
  have r2 := read_result_line h l2 low2 (by omega)
  have r3 := read_result_line h l3 low3 (by omega)
  simp only [collect, hdiv, fgets_blocks_of_read h _ _ _ _ _ _ _ _ r0 r1 r2 r3, r0, r1, r2, r3,
    e1, Option.some_bind, wait_for_termination]
  rw [e2, Option.some_bind, e3]
  simp [pe]
/-! ## The recursion -/

theorem split_halves (A : List Char) (h : Nat) (hlen : A.length = 2 * h)
    (hA : ∀ c ∈ A, c ∈ hexDigits) :
    (A.take h).length = h ∧ ((A.drop h).take h).length = h ∧
    (∀ c ∈ A.take h, c ∈ hexDigits) ∧ (∀ c ∈ (A.drop h).take h, c ∈ hexDigits) ∧
    hexval A = hexval (A.take h) * 16 ^ h + hexval ((A.drop h).take h) := by
  have hd : (A.drop h).take h = A.drop h := by
    apply List.take_of_length_le
    rw [List.length_drop]
    omega
  rw [hd]
  refine ⟨by rw [List.length_take]; omega, by rw [List.length_drop]; omega,
    fun c hc => hA c (List.mem_of_mem_take hc), fun c hc => hA c (List.mem_of_mem_drop hc), ?_⟩
  conv_lhs => rw [← List.take_append_drop h A]
  rw [hexval_append, List.length_drop]
  congr 3
  omega

theorem hexval_single (a : Char) : hexval [a] = digitVal a := by
  simp [hexval]

theorem length_one_eq (A : List Char) (h : A.length = 1) : ∃ a, A = [a] := by
  match A, h with
  | [a], _ => exact ⟨a, rfl⟩

/-- On a platform that pads strings of three digits, a worker on valid
operands of a power-of-two length that fit into a pipe succeeds with the
product. -/
theorem worker_pow2 (p : Platform) (hp : p.pads_three) : ∀ (k fuel : Nat) (A B : List Char),
    A.length = 2 ^ k → B.length = 2 ^ k → (∀ c ∈ A, c ∈ hexDigits) → (∀ c ∈ B, c ∈ hexDigits) →
    k < fuel → (1 ≤ k → 2 ^ k + 2 ≤ p.pipe_capacity) →
    ∃ line, worker p fuel (send_child_data A B) = some (Run.success (line ++ [NL])) ∧
      (∀ c ∈ line, c ∈ lowerDigits) ∧ hexval line = hexval A * hexval B ∧
      (k = 0 → 1 ≤ line.length ∧ line.length ≤ 2) ∧ (1 ≤ k → line.length = 2 * 2 ^ k) := by
  intro k
  induction k with
  | zero =>
    intro fuel A B lA lB hA hB hf _
    obtain ⟨f, rfl⟩ : ∃ f, fuel = f + 1 := ⟨fuel - 1, by omega⟩
    rw [pow_zero] at lA lB
    rw [worker_valid p f A B hA hB (by omega) (by omega), if_pos lA]
    obtain ⟨a, rfl⟩ := length_one_eq A lA
    obtain ⟨b, rfl⟩ := length_one_eq B lB
    obtain ⟨e, low, val, len⟩ := print_product_spec a (hA a (List.mem_singleton.mpr rfl)) b
      (hB b (List.mem_singleton.mpr rfl))
    refine ⟨_, by rw [e], low, by rw [val, hexval_single, hexval_single], fun _ => by omega,
      fun h => by omega⟩
  | succ k ih =>
    intro fuel A B lA lB hA hB hf hcap
    obtain ⟨f, rfl⟩ : ∃ f, fuel = f + 1 := ⟨fuel - 1, by omega⟩
    have hpos : 0 < 2 ^ k := Nat.two_pow_pos k
    have hcap1 := hcap (by omega)
    rw [pow_succ, Nat.mul_comm] at lA lB hcap1
    have hdiv : A.length / 2 = 2 ^ k := by omega
    rw [worker_fits p f A B hA hB (by omega) (by omega) (by omega) (by omega), hdiv]
    obtain ⟨lAh, lAl, vAh, vAl, eA⟩ := split_halves A (2 ^ k) lA hA
    obtain ⟨lBh, lBl, vBh, vBl, eB⟩ := split_halves B (2 ^ k) lB hB
    have hcapk : 1 ≤ k → 2 ^ k + 2 ≤ p.pipe_capacity := fun _ => by omega
    obtain ⟨l0, r0, low0, val0, b0, c0⟩ := ih f _ _ lAh lBh vAh vBh (by omega) hcapk
    obtain ⟨l1, r1, low1, val1, b1, c1⟩ := ih f _ _ lAh lBl vAh vBl (by omega) hcapk
    obtain ⟨l2, r2, low2, val2, b2, c2⟩ := ih f _ _ lAl lBh vAl vBh (by omega) hcapk
    obtain ⟨l3, r3, low3, val3, b3, c3⟩ := ih f _ _ lAl lBl vAl vBl (by omega) hcapk
    have bound : ∀ l : List Char, (k = 0 → 1 ≤ l.length ∧ l.length ≤ 2) →
        (1 ≤ k → l.length = 2 * 2 ^ k) → l.length ≤ 2 * 2 ^ k := by
      intro l h0 h1
      rcases Nat.eq_zero_or_pos k with hk | hk
      · subst hk
        have := (h0 rfl).2
        simpa using this
      · rw [h1 hk]
    have hcase : (2 ^ k = 1 ∧ 1 ≤ l0.length) ∨ (1 ≤ 2 ^ k ∧ l0.length = 2 * 2 ^ k) := by
      rcases Nat.eq_zero_or_pos k with hk | hk
      · subst hk
        exact Or.inl ⟨rfl, (b0 rfl).1⟩
      · exact Or.inr ⟨hpos, c0 hk⟩
    have hAlt := hexval_lt A hA
    have hBlt := hexval_lt B hB
    have hprod : hexval A * hexval B < 16 ^ (4 * 2 ^ k) := by
      have : 16 ^ (4 * 2 ^ k) = 16 ^ A.length * 16 ^ B.length := by
        rw [← pow_add, lA, lB]
        congr 1
        omega
      rw [this]
      exact Nat.mul_lt_mul'' hAlt hBlt
    have hsum : hexval l0 * 16 ^ (2 * 2 ^ k) + hexval l1 * 16 ^ 2 ^ k + hexval l2 * 16 ^ 2 ^ k
        + hexval l3 = hexval A * hexval B := by
      rw [val0, val1, val2, val3, eA, eB, show 2 * 2 ^ k = 2 ^ k + 2 ^ k by omega, pow_add]
      ring
    obtain ⟨line, hc, hlow, hval, hlen⟩ := collect_spec p hp (2 ^ k) l0 l1 l2 l3 low0 low1 low2 low3
      (bound l0 b0 c0) (bound l1 b1 c1) (bound l2 b2 c2) (bound l3 b3 c3) hcase
      (by rw [hsum]; exact hprod)
    refine ⟨line, ?_, hlow, by rw [hval, hsum], fun h => by omega, fun _ => ?_⟩
    · rw [r0, r1, r2, r3]
      simp only
      rw [lA, hc]
    · rw [hlen, pow_succ]
      omega

theorem pow2_half (n : Nat) (heven : n % 2 = 0) (h : ∃ k, n / 2 = 2 ^ k) :
    ∃ k, n = 2 ^ k := by
  obtain ⟨k, hk⟩ := h
  exact ⟨k + 1, by rw [pow_succ]; omega⟩

/-- When the pipe of the first child is at end of file the parent gives
the message about the results and prints nothing. -/
theorem collect_first_error (p : Platform) (n : Nat) (d : Diag) (c1 c2 c3 : Run) :
    collect p n (Run.error [] d) c1 c2 c3 = Run.error [] Diag.read_results_failed := by
  have hb : fgets_blocks (n / 2) [Run.error [] d, c1, c2, c3] = false := by
    rw [fgets_blocks_cons _ _ _ (by simp), read_result_error]
    rfl
  simp only [collect, hb, read_result_error]
  rfl

/-- On a length that is not a power of two the worker prints nothing: it
fails, or it waits for ever in the write of operands that do not fit into
a pipe. -/
theorem worker_not_pow2 (p : Platform) : ∀ (n fuel : Nat) (A B : List Char),
    A.length = n → B.length = n → (∀ c ∈ A, c ∈ hexDigits) → (∀ c ∈ B, c ∈ hexDigits) →
    1 ≤ n → n ≤ fuel → (¬ ∃ k, n = 2 ^ k) →
    (∃ d, worker p fuel (send_child_data A B) = some (Run.error [] d)) ∨
      (worker p fuel (send_child_data A B) = some Run.blocked ∧ p.pipe_capacity < n + 2) := by
  intro n
  induction n using Nat.strong_induction_on with
  | _ n ih =>
    intro fuel A B lA lB hA hB hn hf hnp
    obtain ⟨f, rfl⟩ : ∃ f, fuel = f + 1 := ⟨fuel - 1, by omega⟩
    have hne1 : n ≠ 1 := fun h => hnp ⟨0, by rw [h]; rfl⟩
    by_cases hodd : A.length % 2 ≠ 0 ∨ B.length % 2 ≠ 0
    · left
      rw [worker_valid p f A B hA hB (by omega) (by omega), if_neg (by omega), if_pos hodd]
      exact ⟨_, rfl⟩
    · have heven : n % 2 = 0 := by
        rw [lA] at hodd
        omega
      by_cases hcap : p.pipe_capacity < n + 2
      · right
        exact ⟨worker_blocks p f A B hA hB (by omega) (by omega) (by omega) (by omega), hcap⟩
      · left
        rw [worker_fits p f A B hA hB (by omega) (by omega) (by omega) (by omega)]
        have hnp2 : ¬ ∃ k, n / 2 = 2 ^ k := fun h => hnp (pow2_half n heven h)
        have lA2 : A.length = 2 * (n / 2) := by omega
        have lB2 : B.length = 2 * (n / 2) := by omega
        obtain ⟨lAh, lAl, vAh, vAl, _⟩ := split_halves A (n / 2) lA2 hA
        obtain ⟨lBh, lBl, vBh, vBl, _⟩ := split_halves B (n / 2) lB2 hB
        have hlt : n / 2 < n := by omega
        have child : ∀ X Y : List Char, X.length = n / 2 → Y.length = n / 2 →
            (∀ c ∈ X, c ∈ hexDigits) → (∀ c ∈ Y, c ∈ hexDigits) →
            ∃ d, worker p f (send_child_data X Y) = some (Run.error [] d) := by
          intro X Y lX lY vX vY
          rcases ih (n / 2) hlt f X Y lX lY vX vY (by omega) (by omega) hnp2 with h | ⟨_, h⟩
          · exact h
          · omega
        obtain ⟨d0, r0⟩ := child _ _ lAh lBh vAh vBh
        obtain ⟨d1, r1⟩ := child _ _ lAh lBl vAh vBl
        obtain ⟨d2, r2⟩ := child _ _ lAl lBh vAl vBh
        obtain ⟨d3, r3⟩ := child _ _ lAl lBl vAl vBl
        rw [lA, r0, r1, r2, r3]
        exact ⟨Diag.read_results_failed, by simp only [collect_first_error]⟩

/-! ## Fixed-width digit strings are determined by their value -/

theorem digitVal_inj : ∀ c ∈ lowerDigits, ∀ d ∈ lowerDigits, digitVal c = digitVal d → c = d := by
  decide

theorem lsbval_inj : ∀ (s t : List Char), (∀ c ∈ s, c ∈ lowerDigits) → (∀ c ∈ t, c ∈ lowerDigits) →
    s.length = t.length → lsbval s = lsbval t → s = t := by
  intro s
  induction s with
  | nil =>
    intro t _ _ hl _
    exact (List.length_eq_zero.mp hl.symm).symm
  | cons c cs ih =>
    intro t hs ht hl hv
    cases t with
    | nil => simp at hl
    | cons d ds =>
      have hc := hs c (List.mem_cons_self _ _)
      have hd := ht d (List.mem_cons_self _ _)
      have lc := digitVal_lt (lowerDigits_sub c hc)
      have ld := digitVal_lt (lowerDigits_sub d hd)
      simp only [lsbval] at hv
      have e1 : digitVal c = digitVal d := by omega
      have e2 : lsbval cs = lsbval ds := by omega
      rw [digitVal_inj c hc d hd e1,
        ih ds (fun x hx => hs x (List.mem_cons_of_mem _ hx))
          (fun x hx => ht x (List.mem_cons_of_mem _ hx)) (by simpa using hl) e2]

theorem hexval_inj (s t : List Char) (hs : ∀ c ∈ s, c ∈ lowerDigits)
    (ht : ∀ c ∈ t, c ∈ lowerDigits) (hl : s.length = t.length) (hv : hexval s = hexval t) :
    s = t := by
  have := lsbval_inj s.reverse t.reverse (fun c hc => hs c (List.mem_reverse.mp hc))
    (fun c hc => ht c (List.mem_reverse.mp hc)) (by simpa using hl)
    (by rw [lsbval_reverse, lsbval_reverse, hv])
  simpa using this

/-! ## The outcomes of multiply on valid input -/

theorem lt_two_pow_succ (k : Nat) : k < 2 ^ k + 1 := by
  have := Nat.lt_two_pow k
  omega

/-- On a platform that pads strings of three digits, the program on valid
operands of a power-of-two length that fit into a pipe succeeds with the
product, in lowercase digits; the line is `2 * n` digits wide except for
single digits. -/
theorem multiply_pow2 (p : Platform) (hp : p.pads_three) (k : Nat) (A B : List Char)
    (lA : A.length = 2 ^ k) (lB : B.length = 2 ^ k)
    (hA : ∀ c ∈ A, c ∈ hexDigits) (hB : ∀ c ∈ B, c ∈ hexDigits)
    (hcap : 1 ≤ k → 2 ^ k + 2 ≤ p.pipe_capacity) :
    ∃ line, multiply p A B = some (Run.success (line ++ [NL])) ∧
      (∀ c ∈ line, c ∈ lowerDigits) ∧ hexval line = hexval A * hexval B ∧
      (k = 0 → 1 ≤ line.length ∧ line.length ≤ 2) ∧ (1 ≤ k → line.length = 2 * 2 ^ k) := by
  unfold multiply
  exact worker_pow2 p hp k (A.length + 1) A B lA lB hA hB (by rw [lA]; exact lt_two_pow_succ k)
    hcap

/-- On valid operands whose length is not a power of two the program
prints nothing: it fails, or it waits for ever in the write of operands
that do not fit into a pipe. -/
theorem multiply_not_pow2 (p : Platform) (A B : List Char)
    (hlen : A.length = B.length) (hpos : 1 ≤ A.length)
    (hA : ∀ c ∈ A, c ∈ hexDigits) (hB : ∀ c ∈ B, c ∈ hexDigits)
    (hnp : ¬ ∃ k, A.length = 2 ^ k) :
    (∃ d, multiply p A B = some (Run.error [] d)) ∨
      (multiply p A B = some Run.blocked ∧ p.pipe_capacity < A.length + 2) := by
  unfold multiply
  exact worker_not_pow2 p A.length (A.length + 1) A B rfl hlen.symm hA hB hpos (by omega) hnp

/-- On valid operands of an even length that do not fit into a pipe the
program waits for ever in its first write. -/
theorem multiply_blocks (p : Platform) (A B : List Char)
    (hlen : A.length = B.length) (h2 : 2 ≤ A.length) (heven : A.length % 2 = 0)
    (hA : ∀ c ∈ A, c ∈ hexDigits) (hB : ∀ c ∈ B, c ∈ hexDigits)
    (hcap : p.pipe_capacity < A.length + 2) :
    multiply p A B = some Run.blocked := by
  unfold multiply
  exact worker_blocks p A.length A B hA hB hlen h2 heven hcap

/-- Odd lengths above one are refused before any child is started: one
unit of fuel is enough for the answer. -/
theorem worker_odd (p : Platform) (fuel : Nat) (A B : List Char)
    (hlen : A.length = B.length) (hA : ∀ c ∈ A, c ∈ hexDigits) (hB : ∀ c ∈ B, c ∈ hexDigits)
    (hodd : A.length % 2 = 1) (hgt : 1 < A.length) :
    worker p (fuel + 1) (send_child_data A B) = some (Run.error [] Diag.input_is_not_even) := by
  rw [worker_valid p fuel A B hA hB hlen (by omega), if_neg (by omega), if_pos (by omega)]

/-- The run of the program on "1a2b" and "3c4d", on a platform that pads
strings of three digits and whose pipes take six bytes. -/
theorem multiply_1a2b_3c4d (p : Platform) (hp : p.pads_three) (hcap : 6 ≤ p.pipe_capacity) :
    multiply p "1a2b".toList "3c4d".toList = some (Run.success ("0629f2ef".toList ++ [NL])) := by
  obtain ⟨line, hr, hlow, hval, _, hlen⟩ := multiply_pow2 p hp 2 "1a2b".toList "3c4d".toList
    (by decide) (by decide) (by decide) (by decide) (fun _ => by norm_num; omega)
  have : line = "0629f2ef".toList := by
    apply hexval_inj line _ hlow (by decide)
    · rw [hlen (by norm_num)]
      decide
    · rw [hval]
      decide
  rw [hr, this]
/-! ## Validation -/

theorem hextodec_eq_neg_one_iff (c : Char) : hextodec c = -1 ↔ c ∉ hexDigits := by
  constructor
  · intro h hc
    exact (hexDigits_spec c hc).2.2.1 h
  · intro h
    by_contra hne
    exact h (hextodec_mem c hne)

theorem zip_any_invalid : ∀ (A B : List Char), A.length = B.length →
    ((A.zip B).any (fun p => hextodec p.1 == -1 || hextodec p.2 == -1) = true ↔
      ∃ c, (c ∈ A ∨ c ∈ B) ∧ c ∉ hexDigits) := by
  intro A
  induction A with
  | nil =>
    intro B hl
    have : B = [] := List.length_eq_zero.mp hl.symm
    subst this
    simp
  | cons a as ih =>
    intro B hl
    cases B with
    | nil => simp at hl
    | cons b bs =>
      have := ih bs (by simpa using hl)
      simp only [List.zip_cons_cons, List.any_cons, Bool.or_eq_true, this, beq_iff_eq,
        hextodec_eq_neg_one_iff, List.mem_cons]
      constructor
      · rintro ((h | h) | ⟨c, hc | hc, hn⟩)
        · exact ⟨a, Or.inl (Or.inl rfl), h⟩
        · exact ⟨b, Or.inr (Or.inl rfl), h⟩
        · exact ⟨c, Or.inl (Or.inr hc), hn⟩
        · exact ⟨c, Or.inr (Or.inr hc), hn⟩
      · rintro ⟨c, (rfl | hc) | (rfl | hc), hn⟩
        · exact Or.inl (Or.inl hn)
        · exact Or.inr ⟨c, Or.inl hc, hn⟩
        · exact Or.inl (Or.inr hn)
        · exact Or.inr ⟨c, Or.inr hc, hn⟩

theorem validate_input_cases (A B : List Char) :
    (validate_input A B = some Diag.no_input_given ↔ (A = [] ∨ B = [])) ∧
    (validate_input A B = some Diag.no_equal_length ↔
      (A ≠ [] ∧ B ≠ [] ∧ A.length ≠ B.length)) ∧
    (validate_input A B = some Diag.invalid_character ↔
      (A ≠ [] ∧ B ≠ [] ∧ A.length = B.length ∧ ∃ c, (c ∈ A ∨ c ∈ B) ∧ c ∉ hexDigits)) ∧
    (validate_input A B = none ↔
      (A ≠ [] ∧ B ≠ [] ∧ A.length = B.length ∧ ∀ c, (c ∈ A ∨ c ∈ B) → c ∈ hexDigits)) := by
  unfold validate_input
  by_cases h0 : A.length = 0 ∨ B.length = 0
  · have h0' : A = [] ∨ B = [] := by
      rcases h0 with h | h
      · exact Or.inl (List.length_eq_zero.mp h)
      · exact Or.inr (List.length_eq_zero.mp h)
    rw [if_pos h0]
    refine ⟨by simp [h0'], ?_, ?_, ?_⟩
    · simp only [Option.some.injEq, reduceCtorEq, false_iff]
      rintro ⟨ha, hb, _⟩
      rcases h0' with h | h
      · exact ha h
      · exact hb h
    · simp only [Option.some.injEq, reduceCtorEq, false_iff]
      rintro ⟨ha, hb, _⟩
      rcases h0' with h | h
      · exact ha h
      · exact hb h
    · simp only [reduceCtorEq, false_iff]
      rintro ⟨ha, hb, _⟩
      rcases h0' with h | h
      · exact ha h
      · exact hb h
  · rw [if_neg h0]
    have hA : A ≠ [] := fun h => h0 (Or.inl (by rw [h]; rfl))
    have hB : B ≠ [] := fun h => h0 (Or.inr (by rw [h]; rfl))
    by_cases h1 : A.length ≠ B.length
    · rw [if_pos h1]
      refine ⟨by simp [hA, hB], by simp [hA, hB, h1], ?_, ?_⟩
      · simp only [Option.some.injEq, reduceCtorEq, false_iff]
        rintro ⟨_, _, he, _⟩
        exact h1 he
      · simp only [reduceCtorEq, false_iff]
        rintro ⟨_, _, he, _⟩
        exact h1 he
    · rw [if_neg h1]
      have he : A.length = B.length := not_not.mp h1
      have hz := zip_any_invalid A B he
      by_cases h2 : (A.zip B).any (fun p => hextodec p.1 == -1 || hextodec p.2 == -1) = true
      · rw [if_pos h2]
        refine ⟨by simp [hA, hB], by simp [he], ?_, ?_⟩
        · simp only [true_iff]
          exact ⟨hA, hB, he, hz.mp h2⟩
        · simp only [reduceCtorEq, false_iff]
          rintro ⟨_, _, _, hall⟩
          obtain ⟨c, hc, hn⟩ := hz.mp h2
          exact hn (hall c hc)
      · rw [if_neg h2]
        refine ⟨by simp [hA, hB], by simp [he], ?_, ?_⟩
        · simp only [reduceCtorEq, false_iff]
          rintro ⟨_, _, _, hex⟩
          exact h2 (hz.mpr hex)
        · simp only [true_iff]
          refine ⟨hA, hB, he, ?_⟩
          intro c hc
          by_contra hn
          exact h2 (hz.mpr ⟨c, hc, hn⟩)

/-! ## Failure and output -/

theorem read_result_some_stdout (nhalf : Nat) (c : Run) (s : List Char)
    (h : read_result nhalf c = some s) : c.stdout ≠ [] := by
  intro he
  simp [read_result, he, fgets] at h

theorem wait_ne_zero (c : Run) (h : wait_for_termination c ≠ 0) : ∃ out d, c = Run.error out d := by
  cases c with
  | success out => simp [wait_for_termination] at h
  | error out d => exact ⟨out, d, rfl⟩
  | aborted => simp [wait_for_termination] at h
  | blocked => simp [wait_for_termination] at h

/-- The ways `collect` can end in `exit_error`: before anything is printed,
because a child's line could not be read, or after the product line is
printed, because a child's exit status is not zero. -/
theorem collect_error (p : Platform) (n : Nat) (c0 c1 c2 c3 : Run) (out : List Char)
    (d : Diag) (h : collect p n c0 c1 c2 c3 = Run.error out d) :
    (d = Diag.read_results_failed ∧ out = []) ∨
    (d = Diag.wait_for_child_failed ∧ (∃ line, out = line ++ [NL]) ∧
      c0.stdout ≠ [] ∧ c1.stdout ≠ [] ∧ c2.stdout ≠ [] ∧ c3.stdout ≠ [] ∧
      (wait_for_termination c0 ≠ 0 ∨ wait_for_termination c1 ≠ 0 ∨
        wait_for_termination c2 ≠ 0 ∨ wait_for_termination c3 ≠ 0)) := by
  simp only [collect] at h
  by_cases hb : fgets_blocks (n / 2) [c0, c1, c2, c3] = true
  · rw [if_pos hb] at h
    exact absurd h (by simp)
  · rw [if_neg hb] at h
    split at h
    · rename_i res0 res1 res2 res3 h0 h1 h2 h3
      split at h
      · exact absurd h (by simp)
      · rename_i a3 _
        split at h
        · exact absurd h (by simp)
        · rename_i line _
          split_ifs at h with hw
          · simp only [Run.error.injEq] at h
            exact Or.inr ⟨h.2.symm, ⟨_, h.1.symm⟩, read_result_some_stdout _ _ _ h0,
              read_result_some_stdout _ _ _ h1, read_result_some_stdout _ _ _ h2,
              read_result_some_stdout _ _ _ h3, hw⟩
    · simp only [Run.error.injEq] at h
      exact Or.inl ⟨h.2.symm, h.1.symm⟩

theorem print_product_fails_silently (A B : List Char) (out : List Char) (d : Diag)
    (h : print_product_and_exit A B = Run.error out d) : out = [] := by
  simp only [print_product_and_exit] at h
  split_ifs at h
  simp only [Run.error.injEq] at h
  exact h.1.symm

/-- A run of the program whose children are runs of the program never ends
in `exit_error` with something printed. -/
theorem worker_fails_silently (p : Platform) : ∀ (fuel : Nat) (stdin : List Char) (out : List Char)
    (d : Diag), worker p fuel stdin = some (Run.error out d) → out = [] := by
  intro fuel
  induction fuel with
  | zero =>
    intro stdin out d h
    simp [worker] at h
  | succ f ih =>
    intro stdin out d h
    simp only [worker] at h
    split at h
    · simp only [Option.some.injEq, Run.error.injEq] at h
      exact h.1.symm
    · split_ifs at h
      · simp only [Option.some.injEq] at h
        exact print_product_fails_silently _ _ _ _ h
      · simp only [Option.some.injEq, Run.error.injEq] at h
        exact h.1.symm
      · exact absurd h (by simp)
      · split at h
        · rename_i c0 c1 c2 c3 e0 e1 e2 e3
          simp only [Option.some.injEq] at h
          rcases collect_error p _ c0 c1 c2 c3 out d h with ⟨_, ho⟩ | ⟨_, _, s0, s1, s2, s3, hw⟩
          · exact ho
          · exfalso
            rcases hw with hw | hw | hw | hw
            · obtain ⟨o, d', rfl⟩ := wait_ne_zero _ hw
              exact s0 (ih _ o d' e0)
            · obtain ⟨o, d', rfl⟩ := wait_ne_zero _ hw
              exact s1 (ih _ o d' e1)
            · obtain ⟨o, d', rfl⟩ := wait_ne_zero _ hw
              exact s2 (ih _ o d' e2)
            · obtain ⟨o, d', rfl⟩ := wait_ne_zero _ hw
              exact s3 (ih _ o d' e3)
        · exact absurd h (by simp)

/-! ## Base case -/

theorem print_product_text : ∀ a ∈ hexDigits, ∀ b ∈ hexDigits,
    print_product_and_exit [a] [b] = Run.success (hexText (digitVal a * digitVal b) ++ [NL]) ∧
    (hexText (digitVal a * digitVal b)).length = (if digitVal a * digitVal b < 16 then 1 else 2) ∧
    (∀ c ∈ hexText (digitVal a * digitVal b), c ∈ lowerDigits) ∧
    hexval (hexText (digitVal a * digitVal b)) = digitVal a * digitVal b := by
  decide

theorem multiply_single (p : Platform) (a b : Char) (ha : a ∈ hexDigits) (hb : b ∈ hexDigits) :
    multiply p [a] [b] = some (print_product_and_exit [a] [b]) := by
  unfold multiply
  rw [worker_valid p _ [a] [b] (by simpa using ha) (by simpa using hb) rfl (by simp)]
  simp

theorem pow2_ge_two (n k : Nat) (h : n = 2 ^ k) (hn : 2 ≤ n) : 1 ≤ k := by
  rcases Nat.eq_zero_or_pos k with hk | hk
  · subst hk
    simp at h
    omega
  · exact hk

/-- On a platform that pads strings of three digits, every run of the
program on valid operands of length at least two that prints anything
prints one line of `2 * n` lowercase digits whose value is the product. -/
theorem multiply_output (p : Platform) (hp : p.pads_three) (A B : List Char)
    (hlen : A.length = B.length)
    (hn : 2 ≤ A.length) (hA : ∀ c ∈ A, c ∈ hexDigits) (hB : ∀ c ∈ B, c ∈ hexDigits)
    (r : Run) (hr : multiply p A B = some r) (hout : r.stdout ≠ []) :
    ∃ line, r = Run.success (line ++ [NL]) ∧ (∀ c ∈ line, c ∈ lowerDigits) ∧
      hexval line = hexval A * hexval B ∧ line.length = 2 * A.length := by
  by_cases hpow : ∃ k, A.length = 2 ^ k
  · obtain ⟨k, hk⟩ := hpow
    have hk1 : 1 ≤ k := pow2_ge_two _ k hk hn
    by_cases hcap : p.pipe_capacity < A.length + 2
    · have heven : A.length % 2 = 0 := by
        obtain ⟨j, rfl⟩ : ∃ j, k = j + 1 := ⟨k - 1, by omega⟩
        rw [hk, pow_succ]
        omega
      rw [multiply_blocks p A B hlen hn heven hA hB hcap] at hr
      rw [← Option.some.inj hr] at hout
      exact absurd rfl hout
    · obtain ⟨line, hm, hlow, hval, _, hl⟩ := multiply_pow2 p hp k A B hk (by rw [← hlen, hk])
        hA hB (fun _ => by rw [← hk]; omega)
      rw [hm] at hr
      refine ⟨line, (Option.some.inj hr).symm, hlow, hval, ?_⟩
      rw [hl hk1, hk]
  · rcases multiply_not_pow2 p A B hlen (by omega) hA hB hpow with ⟨d, hm⟩ | ⟨hm, _⟩
    · rw [hm] at hr
      rw [← Option.some.inj hr] at hout
      exact absurd rfl hout
    · rw [hm] at hr
      rw [← Option.some.inj hr] at hout
      exact absurd rfl hout

theorem replicate_zero_lower (n : Nat) : ∀ c ∈ List.replicate n '0', c ∈ lowerDigits := by
  intro c hc
  rw [List.eq_of_mem_replicate hc]
  decide

theorem replicate_zero_hex (n : Nat) : ∀ c ∈ List.replicate n '0', c ∈ hexDigits :=
  fun c hc => lowerDigits_sub c (replicate_zero_lower n c hc)

/-! ## The width of a sum -/

theorem find_range_some (p : Nat → Bool) (size L : Nat)
    (h : (List.range size).find? p = some L) :
    L < size ∧ p L = true ∧ ∀ i, i < L → p i = false := by
  have hp : p L = true := List.find?_some h
  have hm : L < size := List.mem_range.mp (List.mem_of_find?_eq_some h)
  refine ⟨hm, hp, ?_⟩
  intro i hi
  by_contra hne
  have hex : ∃ j, p j = true := ⟨i, by simpa using hne⟩
  have hmin : ∀ j, j < Nat.find hex → ¬ p j = true := fun j hj => Nat.find_min hex hj
  have hspec := Nat.find_spec hex
  have hle : Nat.find hex ≤ i := Nat.find_min' hex (by simpa using hne)
  have := find_range p (Nat.find hex) size (by omega)
    (fun j hj => by simpa using hmin j hj) hspec
  rw [h] at this
  have := Option.some.inj this
  omega

theorem strlen_some (out : Nat → Char) (size L : Nat) (h : strlen out size = some L) :
    L < size ∧ out L = NUL ∧ ∀ i, i < L → out i ≠ NUL := by
  obtain ⟨h1, h2, h3⟩ := find_range_some _ size L h
  refine ⟨h1, by simpa using h2, ?_⟩
  intro i hi
  simpa using h3 i hi

/-- Reading back after `revarr` over `L` bytes and a terminator stored at
`c ≤ L`: the string is `c` bytes long. -/
theorem readback_length (out : Nat → Char) (L c size : Nat) (hL : L < size) (hc : c ≤ L)
    (hne : ∀ i, i < L → out i ≠ NUL) :
    (readstr (store (revarr out (L + 1)) c NUL) size).length = c := by
  obtain ⟨hr, _⟩ := revarr_spec out L hne
  rw [readstr_eq, show size = c + (1 + (size - c - 1)) by omega, bytes_append, bytes_append]
  have h1 : bytes (store (revarr out (L + 1)) c NUL) (0 + c) 1 = [NUL] := by
    rw [bytes_succ, bytes_zero]
    simp [store]
  rw [h1, List.singleton_append, cstr_append_nul, bytes_length]
  intro x hx
  obtain ⟨i, hi, rfl⟩ := mem_bytes hx
  simp only [store, Nat.zero_add]
  rw [if_neg (by omega), hr i (by omega)]
  exact hne _ (by omega)

/-- Whenever `addhexstr` returns, for any content of the uninitialised
bytes, the result has `max` of the two lengths digits, plus one exactly
when the sum reaches `16 ^ max`. -/
theorem addhexstr_length (junk : Nat → Char) (s1 s2 : List Char)
    (v1 : ∀ c ∈ s1, c ∈ hexDigits) (v2 : ∀ c ∈ s2, c ∈ hexDigits) (r : List Char)
    (h : addhexstr junk s1 s2 = some r) :
    r.length = (if hexval s1 + hexval s2 < 16 ^ max s1.length s2.length
      then max s1.length s2.length else max s1.length s2.length + 1) := by
  obtain ⟨st, hloop, inv, hcnt, hlow, _, hval⟩ :=
    addhexstr_loop_spec (max s1.length s2.length) s1.reverse s2.reverse (addhexstr_init junk)
      (fun c hc => v1 c (List.mem_reverse.mp hc)) (fun c hc => v2 c (List.mem_reverse.mp hc))
      (by simp) (by simp) (addInv_init junk)
  generalize hm : max s1.length s2.length = m at *
  have hc0 : (addhexstr_init junk).buffer_counter = 0 := rfl
  have hcar0 : (addhexstr_init junk).carry = 0 := rfl
  rw [hc0] at hlow hval
  rw [hc0, Nat.zero_add] at hcnt
  rw [hcar0, lsbval_reverse, lsbval_reverse] at hval
  have hds := lsbval_lt (bytes st.out_buffer 0 m) (fun c hc => lowerDigits_sub c (hlow c hc))
  rw [bytes_length] at hds
  have hne : ∀ i, i < m → st.out_buffer i ≠ NUL := by
    intro i hi
    apply lowerDigits_ne_nul
    apply hlow
    simp only [bytes, List.mem_map, List.mem_range]
    exact ⟨i, hi, by simp⟩
  simp only [addhexstr, hm, hloop, hcnt] at h
  rcases inv.carry with hcar | hcar
  · rw [hcar] at hval
    have hsum : hexval s1 + hexval s2 = lsbval (bytes st.out_buffer 0 m) := by
      have : ((lsbval (bytes st.out_buffer 0 m) : Nat) : Int) = ((hexval s1 + hexval s2 : Nat) : Int) := by
        push_cast
        linarith
      exact (Int.ofNat_inj.mp this).symm
    simp only [hcar, zero_ne_one, if_false] at h
    split at h
    · exact absurd h (by simp)
    · rename_i L hL
      obtain ⟨l1, l2, l3⟩ := strlen_some _ _ _ hL
      have hmL : m ≤ L := by
        by_contra hlt
        exact hne L (by omega) l2
      rw [← Option.some.inj h, readback_length _ L m _ l1 hmL l3, if_pos (by omega)]
  · rw [hcar] at hval
    have hsum : hexval s1 + hexval s2 = lsbval (bytes st.out_buffer 0 m) + 16 ^ m := by
      have : ((lsbval (bytes st.out_buffer 0 m) + 16 ^ m : Nat) : Int) =
          ((hexval s1 + hexval s2 : Nat) : Int) := by
        push_cast
        linarith
      exact (Int.ofNat_inj.mp this).symm
    simp only [hcar, if_true] at h
    split at h
    · exact absurd h (by simp)
    · rename_i L hL
      obtain ⟨l1, l2, l3⟩ := strlen_some _ _ _ hL
      have hmL : m + 1 ≤ L := by
        by_contra hlt
        have hLm : L ≤ m := by omega
        rcases Nat.lt_or_ge L m with h1 | h1
        · have := hne L h1
          simp only [store] at l2
          rw [if_neg (by omega)] at l2
          exact this l2
        · have : L = m := by omega
          subst this
          simp [store] at l2
          exact absurd l2 (by decide)
      rw [← Option.some.inj h, readback_length _ L (m + 1) _ l1 hmL l3, if_neg (by omega)]

/-! ## Fuel -/

/-- More fuel never changes the run of a worker. -/
theorem worker_mono (p : Platform) : ∀ (fuel : Nat) (stdin : List Char) (r : Run),
    worker p fuel stdin = some r → worker p (fuel + 1) stdin = some r := by
  intro fuel
  induction fuel with
  | zero =>
    intro stdin r h
    simp [worker] at h
  | succ f ih =>
    intro stdin r h
    rw [worker] at h ⊢
    simp only at h ⊢
    split at h
    · exact h
    · split_ifs at h ⊢ with h1 h2 h3
      · exact h
      · exact h
      · exact h
      · split at h
        · rename_i c0 c1 c2 c3 e0 e1 e2 e3
          rw [ih _ _ e0, ih _ _ e1, ih _ _ e2, ih _ _ e3]
          exact h
        · exact absurd h (by simp)

theorem worker_mono_le (p : Platform) (f g : Nat) (hfg : f ≤ g) (stdin : List Char)
    (r : Run) (h : worker p f stdin = some r) : worker p g stdin = some r := by
  induction g with
  | zero =>
    have : f = 0 := by omega
    subst this
    exact h
  | succ g ih =>
    rcases Nat.lt_or_ge f (g + 1) with hlt | hge
    · exact worker_mono p g stdin r (ih (by omega))
    · have : f = g + 1 := by omega
      subst this
      exact h

/-- On every platform, fuel equal to the operand length is enough for the
model to give the run of a worker on valid operands its outcome. -/
theorem worker_total (p : Platform) : ∀ (n fuel : Nat) (A B : List Char),
    A.length = n → B.length = n → (∀ c ∈ A, c ∈ hexDigits) → (∀ c ∈ B, c ∈ hexDigits) →
    1 ≤ n → n ≤ fuel → ∃ r, worker p fuel (send_child_data A B) = some r := by
  intro n
  induction n using Nat.strong_induction_on with
  | _ n ih =>
    intro fuel A B lA lB hA hB hn hf
    obtain ⟨f, rfl⟩ : ∃ f, fuel = f + 1 := ⟨fuel - 1, by omega⟩
    rw [worker_valid p f A B hA hB (by omega) (by omega)]
    by_cases h1 : A.length = 1
    · rw [if_pos h1]
      exact ⟨_, rfl⟩
    · rw [if_neg h1]
      by_cases hodd : A.length % 2 ≠ 0 ∨ B.length % 2 ≠ 0
      · rw [if_pos hodd]
        exact ⟨_, rfl⟩
      · rw [if_neg hodd]
        split_ifs with hcap
        · exact ⟨_, rfl⟩
        · have heven : n % 2 = 0 := by
            rw [lA] at hodd
            omega
          have lA2 : A.length = 2 * (n / 2) := by omega
          have lB2 : B.length = 2 * (n / 2) := by omega
          obtain ⟨lAh, lAl, vAh, vAl, _⟩ := split_halves A (n / 2) lA2 hA
          obtain ⟨lBh, lBl, vBh, vBl, _⟩ := split_halves B (n / 2) lB2 hB
          have hlt : n / 2 < n := by omega
          obtain ⟨c0, r0⟩ := ih (n / 2) hlt f _ _ lAh lBh vAh vBh (by omega) (by omega)
          obtain ⟨c1, r1⟩ := ih (n / 2) hlt f _ _ lAh lBl vAh vBl (by omega) (by omega)
          obtain ⟨c2, r2⟩ := ih (n / 2) hlt f _ _ lAl lBh vAl vBh (by omega) (by omega)
          obtain ⟨c3, r3⟩ := ih (n / 2) hlt f _ _ lAl lBl vAl vBl (by omega) (by omega)
          rw [lA, r0, r1, r2, r3]
          exact ⟨_, rfl⟩

/-! ## One level of the recursion -/

theorem worker_eq_multiply (p : Platform) (fuel : Nat) (A B : List Char)
    (hlen : A.length = B.length) (hpos : 1 ≤ A.length)
    (hA : ∀ c ∈ A, c ∈ hexDigits) (hB : ∀ c ∈ B, c ∈ hexDigits) (hf : A.length ≤ fuel) :
    worker p fuel (send_child_data A B) = multiply p A B := by
  obtain ⟨r, hr⟩ := worker_total p A.length A.length A B rfl hlen.symm hA hB hpos (le_refl _)
  rw [multiply, worker_mono_le p A.length fuel hf _ r hr,
    worker_mono_le p A.length (A.length + 1) (by omega) _ r hr]

/-- On every platform the model gives every run on valid operands its
outcome: the run ends (with a line, with a failure, or killed) or it waits
for ever. -/
theorem multiply_total (p : Platform) (A B : List Char)
    (hlen : A.length = B.length) (hpos : 1 ≤ A.length)
    (hA : ∀ c ∈ A, c ∈ hexDigits) (hB : ∀ c ∈ B, c ∈ hexDigits) :
    ∃ r, multiply p A B = some r :=
  worker_total p A.length (A.length + 1) A B rfl hlen.symm hA hB hpos (by omega)

/-- On a platform that pads strings of three digits, every run on valid
operands that fit into a pipe ends, with a product line or with a failure
that has printed nothing. -/
theorem multiply_ends (p : Platform) (hp : p.pads_three) (A B : List Char)
    (hlen : A.length = B.length) (hpos : 1 ≤ A.length)
    (hA : ∀ c ∈ A, c ∈ hexDigits) (hB : ∀ c ∈ B, c ∈ hexDigits)
    (hcap : A.length + 2 ≤ p.pipe_capacity) :
    ∃ r, multiply p A B = some r ∧
      ((∃ line, r = Run.success (line ++ [NL])) ∨ ∃ d, r = Run.error [] d) := by
  by_cases hpow : ∃ k, A.length = 2 ^ k
  · obtain ⟨k, hk⟩ := hpow
    obtain ⟨line, hw, _⟩ := multiply_pow2 p hp k A B hk (by rw [← hlen, hk]) hA hB
      (fun _ => by rw [← hk]; exact hcap)
    exact ⟨_, hw, Or.inl ⟨line, rfl⟩⟩
  · rcases multiply_not_pow2 p A B hlen hpos hA hB hpow with ⟨d, hw⟩ | ⟨_, hlt⟩
    · exact ⟨_, hw, Or.inr ⟨d, rfl⟩⟩
    · omega

theorem collect_success_form (p : Platform) (n : Nat) (l0 l1 l2 l3 : List Char)
    (low0 : ∀ c ∈ l0, c ∈ lowerDigits) (low1 : ∀ c ∈ l1, c ∈ lowerDigits)
    (low2 : ∀ c ∈ l2, c ∈ lowerDigits) (low3 : ∀ c ∈ l3, c ∈ lowerDigits)
    (len0 : l0.length ≤ n / 2 * 2) (len1 : l1.length ≤ n / 2 * 2)
    (len2 : l2.length ≤ n / 2 * 2) (len3 : l3.length ≤ n / 2 * 2) :
    collect p n (Run.success (l0 ++ [NL])) (Run.success (l1 ++ [NL]))
        (Run.success (l2 ++ [NL])) (Run.success (l3 ++ [NL])) =
      match recombine p.junk l0 l1 l2 l3 n with
      | none => Run.aborted
      | some a3 =>
        match add_leading_zero p a3 with
        | none => Run.aborted
        | some line => Run.success (line ++ [NL]) := by
  have r0 := read_result_line _ l0 low0 len0
  have r1 := read_result_line _ l1 low1 len1
  have r2 := read_result_line _ l2 low2 len2
  have r3 := read_result_line _ l3 low3 len3
  simp only [collect, fgets_blocks_of_read _ _ _ _ _ _ _ _ _ r0 r1 r2 r3, r0, r1, r2, r3,
    recombine, wait_for_termination]
  simp only [ne_eq, not_true_eq_false, or_self, if_false]
  all_goals rfl

/-- The three additions of the recombination, for four lines of lowercase
digits that fit the parent's rows: the sum is exact, and it is at least as
wide as the shifted first line and at most `4 * h` digits wide. -/
theorem recombine_spec (junk : Nat → Char) (h : Nat) (l0 l1 l2 l3 : List Char)
    (low0 : ∀ c ∈ l0, c ∈ lowerDigits) (low1 : ∀ c ∈ l1, c ∈ lowerDigits)
    (low2 : ∀ c ∈ l2, c ∈ lowerDigits) (low3 : ∀ c ∈ l3, c ∈ lowerDigits)
    (len0 : l0.length ≤ 2 * h) (len1 : l1.length ≤ 2 * h) (len2 : l2.length ≤ 2 * h)
    (len3 : l3.length ≤ 2 * h)
    (hcase : (h = 1 ∧ 1 ≤ l0.length) ∨ (1 ≤ h ∧ l0.length = 2 * h))
    (hT : hexval l0 * 16 ^ (2 * h) + hexval l1 * 16 ^ h + hexval l2 * 16 ^ h + hexval l3
        < 16 ^ (4 * h)) :
    ∃ a3, recombine junk l0 l1 l2 l3 (2 * h) = some a3 ∧ (∀ c ∈ a3, c ∈ lowerDigits) ∧
      hexval a3 = hexval l0 * 16 ^ (2 * h) + hexval l1 * 16 ^ h + hexval l2 * 16 ^ h + hexval l3 ∧
      l0.length + 2 * h ≤ a3.length ∧ a3.length ≤ 4 * h := by
  have hx0 : ∀ c ∈ l0, c ∈ hexDigits := fun c hc => lowerDigits_sub c (low0 c hc)
  have hx1 : ∀ c ∈ l1, c ∈ hexDigits := fun c hc => lowerDigits_sub c (low1 c hc)
  have hx2 : ∀ c ∈ l2, c ∈ hexDigits := fun c hc => lowerDigits_sub c (low2 c hc)
  have hx3 : ∀ c ∈ l3, c ∈ hexDigits := fun c hc => lowerDigits_sub c (low3 c hc)
  have hsmall : 4 * h ≤ 67 ∨ l0.length = 2 * h := by
    rcases hcase with ⟨h1, _⟩ | ⟨_, h2⟩
    · left; omega
    · right; exact h2
  obtain ⟨a1, e1, lw1, val1, lo1, up1⟩ := addhexstr_width junk (4 * h) (hexlsh l0 (2 * h))
    (hexlsh l1 h) (hexlsh_mem _ _ hx0) (hexlsh_mem _ _ hx1)
    (by rw [hexlsh_length, hexlsh_length]; omega)
    (by rw [hexval_hexlsh, hexval_hexlsh]; omega)
    (by rw [hexlsh_length, hexlsh_length]; omega)
  rw [hexlsh_length, hexlsh_length] at lo1
  rw [hexval_hexlsh, hexval_hexlsh] at val1
  have hxa1 : ∀ c ∈ a1, c ∈ hexDigits := fun c hc => lowerDigits_sub c (lw1 c hc)
  obtain ⟨a2, e2, lw2, val2, lo2, up2⟩ := addhexstr_width junk (4 * h) a1
    (hexlsh l2 h) hxa1 (hexlsh_mem _ _ hx2)
    (by rw [hexlsh_length]; omega)
    (by rw [hexval_hexlsh, val1]; omega)
    (by rw [hexlsh_length]; omega)
  rw [hexlsh_length] at lo2
  rw [hexval_hexlsh, val1] at val2
  have hxa2 : ∀ c ∈ a2, c ∈ hexDigits := fun c hc => lowerDigits_sub c (lw2 c hc)
  obtain ⟨a3, e3, lw3, val3, lo3, up3⟩ := addhexstr_width junk (4 * h) a2 l3 hxa2 hx3
    (by omega) (by rw [val2]; omega) (by omega)
  rw [val2] at val3
  have hdiv : 2 * h / 2 = h := by omega
  refine ⟨a3, ?_, lw3, val3, by omega, up3⟩
  simp only [recombine, hdiv]
  rw [e1, Option.some_bind, e2, Option.some_bind, e3]

/-- One level of the recursion on operands of length `2 ^ (k + 1)` that
fit into a pipe, on a platform that pads strings of three digits: the four
children are the runs on the halves, in the order (Ah, Bh), (Ah, Bl),
(Al, Bh), (Al, Bl); the parent prints what `add_leading_zero` makes of
their recombination with the shifts `n`, `n / 2`, `n / 2`, 0. -/
theorem multiply_step (p : Platform) (hp : p.pads_three) (k : Nat) (A B : List Char)
    (lA : A.length = 2 ^ (k + 1)) (lB : B.length = 2 ^ (k + 1))
    (hA : ∀ c ∈ A, c ∈ hexDigits) (hB : ∀ c ∈ B, c ∈ hexDigits)
    (hcap : 2 ^ (k + 1) + 2 ≤ p.pipe_capacity) :
    ∃ HH HL LH LL a3 line,
      multiply p (A.take (A.length / 2)) (B.take (A.length / 2))
        = some (Run.success (HH ++ [NL])) ∧
      multiply p (A.take (A.length / 2)) ((B.drop (A.length / 2)).take (A.length / 2))
        = some (Run.success (HL ++ [NL])) ∧
      multiply p ((A.drop (A.length / 2)).take (A.length / 2)) (B.take (A.length / 2))
        = some (Run.success (LH ++ [NL])) ∧
      multiply p ((A.drop (A.length / 2)).take (A.length / 2))
          ((B.drop (A.length / 2)).take (A.length / 2))
        = some (Run.success (LL ++ [NL])) ∧
      recombine p.junk HH HL LH LL A.length = some a3 ∧
      add_leading_zero p a3 = some line ∧
      multiply p A B = some (Run.success (line ++ [NL])) ∧
      hexval a3 = hexval HH * 16 ^ A.length + hexval HL * 16 ^ (A.length / 2)
        + hexval LH * 16 ^ (A.length / 2) + hexval LL ∧
      hexval HH = hexval (A.take (A.length / 2)) * hexval (B.take (A.length / 2)) ∧
      hexval HL = hexval (A.take (A.length / 2))
        * hexval ((B.drop (A.length / 2)).take (A.length / 2)) ∧
      hexval LH = hexval ((A.drop (A.length / 2)).take (A.length / 2))
        * hexval (B.take (A.length / 2)) ∧
      hexval LL = hexval ((A.drop (A.length / 2)).take (A.length / 2))
        * hexval ((B.drop (A.length / 2)).take (A.length / 2)) ∧
      (∀ c ∈ a3, c ∈ lowerDigits) ∧ HH.length + A.length ≤ a3.length ∧
      a3.length ≤ 2 * A.length ∧ (1 ≤ k → HH.length = A.length) ∧
      hexval line = hexval a3 ∧ (∀ c ∈ line, c ∈ lowerDigits) ∧
      line.length = a3.length + a3.length % 2 := by
  have hpos : 0 < 2 ^ k := Nat.two_pow_pos k
  have lA2 : A.length = 2 * 2 ^ k := by rw [lA, pow_succ]; omega
  have lB2 : B.length = 2 * 2 ^ k := by rw [lB, pow_succ]; omega
  have hcap2 : 2 * 2 ^ k + 2 ≤ p.pipe_capacity := by rw [pow_succ] at hcap; omega
  have hcapk : 1 ≤ k → 2 ^ k + 2 ≤ p.pipe_capacity := fun _ => by omega
  have hdiv : A.length / 2 = 2 ^ k := by omega
  rw [hdiv]
  obtain ⟨lAh, lAl, vAh, vAl, eA⟩ := split_halves A (2 ^ k) lA2 hA
  obtain ⟨lBh, lBl, vBh, vBl, eB⟩ := split_halves B (2 ^ k) lB2 hB
  obtain ⟨l0, r0, low0, val0, b0, c0⟩ := multiply_pow2 p hp k _ _ lAh lBh vAh vBh hcapk
  obtain ⟨l1, r1, low1, val1, b1, c1⟩ := multiply_pow2 p hp k _ _ lAh lBl vAh vBl hcapk
  obtain ⟨l2, r2, low2, val2, b2, c2⟩ := multiply_pow2 p hp k _ _ lAl lBh vAl vBh hcapk
  obtain ⟨l3, r3, low3, val3, b3, c3⟩ := multiply_pow2 p hp k _ _ lAl lBl vAl vBl hcapk
  have bound : ∀ l : List Char, (k = 0 → 1 ≤ l.length ∧ l.length ≤ 2) →
      (1 ≤ k → l.length = 2 * 2 ^ k) → l.length ≤ 2 * 2 ^ k := by
    intro l h0 h1
    rcases Nat.eq_zero_or_pos k with hk | hk
    · subst hk
      have := (h0 rfl).2
      simpa using this
    · rw [h1 hk]
  have hcase : (2 ^ k = 1 ∧ 1 ≤ l0.length) ∨ (1 ≤ 2 ^ k ∧ l0.length = 2 * 2 ^ k) := by
    rcases Nat.eq_zero_or_pos k with hk | hk
    · subst hk
      exact Or.inl ⟨rfl, (b0 rfl).1⟩
    · exact Or.inr ⟨hpos, c0 hk⟩
  have hAlt := hexval_lt A hA
  have hBlt := hexval_lt B hB
  have hprod : hexval A * hexval B < 16 ^ (4 * 2 ^ k) := by
    have : 16 ^ (4 * 2 ^ k) = 16 ^ A.length * 16 ^ B.length := by
      rw [← pow_add, lA2, lB2]
      congr 1
      omega
    rw [this]
    exact Nat.mul_lt_mul'' hAlt hBlt
  have hsum : hexval l0 * 16 ^ (2 * 2 ^ k) + hexval l1 * 16 ^ 2 ^ k + hexval l2 * 16 ^ 2 ^ k
      + hexval l3 = hexval A * hexval B := by
    rw [val0, val1, val2, val3, eA, eB, show 2 * 2 ^ k = 2 ^ k + 2 ^ k by omega, pow_add]
    ring
  obtain ⟨a3, hre, hlow, hval, hlo, hup⟩ := recombine_spec p.junk (2 ^ k) l0 l1 l2 l3 low0 low1
    low2 low3 (bound l0 b0 c0) (bound l1 b1 c1) (bound l2 b2 c2) (bound l3 b3 c3) hcase
    (by rw [hsum]; exact hprod)
  have hshape : a3.length = 3 ∨ a3.length % 2 = 0 := by
    rcases hcase with ⟨h1, h2⟩ | ⟨_, h2⟩
    · rw [h1] at hlo hup
      omega
    · right
      omega
  obtain ⟨line, pe, pv, pl, plen⟩ := add_leading_zero_spec p hp a3 hlow hshape
  have hform := collect_success_form p (2 * 2 ^ k) l0 l1 l2 l3 low0 low1 low2 low3
    (by have := bound l0 b0 c0; omega) (by have := bound l1 b1 c1; omega)
    (by have := bound l2 b2 c2; omega) (by have := bound l3 b3 c3; omega)
  rw [hre] at hform
  simp only [pe] at hform
  have hw : multiply p A B = some (Run.success (line ++ [NL])) := by
    have e0 := worker_eq_multiply p A.length _ _ (lAh.trans lBh.symm) (by omega) vAh vBh
      (by omega)
    have e1 := worker_eq_multiply p A.length _ _ (lAh.trans lBl.symm) (by omega) vAh vBl
      (by omega)
    have e2 := worker_eq_multiply p A.length _ _ (lAl.trans lBh.symm) (by omega) vAl vBh
      (by omega)
    have e3 := worker_eq_multiply p A.length _ _ (lAl.trans lBl.symm) (by omega) vAl vBl
      (by omega)
    rw [multiply, worker_fits p A.length A B hA hB (by omega) (by omega) (by omega) (by omega),
      hdiv, e0, e1, e2, e3, r0, r1, r2, r3]
    simp only
    rw [lA2, hform]
  refine ⟨l0, l1, l2, l3, a3, line, r0, r1, r2, r3, by rw [lA2]; exact hre, pe, hw, ?_,
    val0, val1, val2, val3, hlow, by omega, by omega, fun hk => by rw [c0 hk, lA2], pv, pl, plen⟩
  rw [hval, lA2]

/-! ## Digit values against the specification -/

set_option maxRecDepth 100000 in
theorem digitValue_ascii : ∀ n, n < 128 →
    (∀ v, digitValue (Char.ofNat n) = some v → hextodec (Char.ofNat n) = (v : Int) ∧ v ≤ 15) ∧
    (digitValue (Char.ofNat n) = none → hextodec (Char.ofNat n) = -1) := by
  decide

theorem hexDigits_ascii : ∀ c ∈ hexDigits, c.toNat < 128 := by decide

theorem digitValue_spec (c : Char) :
    (∀ v, digitValue c = some v → hextodec c = (v : Int) ∧ v ≤ 15) ∧
    (digitValue c = none → hextodec c = -1) := by
  by_cases h : c.toNat < 128
  · have := digitValue_ascii c.toNat h
    rwa [Char.ofNat_toNat] at this
  · have hn : hextodec c = -1 :=
      (hextodec_eq_neg_one_iff c).mpr (fun hc => h (hexDigits_ascii c hc))
    have h0 : '0'.toNat = 48 := rfl
    have h9 : '9'.toNat = 57 := rfl
    have ha : 'a'.toNat = 97 := rfl
    have hf : 'f'.toNat = 102 := rfl
    have hA : 'A'.toNat = 65 := rfl
    have hF : 'F'.toNat = 70 := rfl
    have hd : digitValue c = none := by
      simp only [digitValue, h0, h9, ha, hf, hA, hF]
      rw [if_neg (by omega), if_neg (by omega), if_neg (by omega)]
    exact ⟨fun v hv => by rw [hd] at hv; exact absurd hv (by simp), fun _ => hn⟩

/-! ## Workers on operands of two digits -/

/-- A sum of at most 67 digits is the lowercase string of its value and of
its width, whatever the uninitialised bytes hold. -/
theorem addhexstr_eq (junk : Nat → Char) (s1 s2 r : List Char)
    (h : (∀ c ∈ s1, c ∈ hexDigits) ∧ (∀ c ∈ s2, c ∈ hexDigits) ∧
      max s1.length s2.length ≤ 67 ∧ (∀ c ∈ r, c ∈ lowerDigits) ∧
      hexval r = hexval s1 + hexval s2 ∧
      r.length = (if hexval s1 + hexval s2 < 16 ^ max s1.length s2.length
        then max s1.length s2.length else max s1.length s2.length + 1)) :
    addhexstr junk s1 s2 = some r := by
  obtain ⟨v1, v2, h67, hr, hv, hl⟩ := h
  obtain ⟨r', e, low, val, len⟩ := addhexstr_spec junk s1 s2 v1 v2 (Or.inl h67)
  rw [e, hexval_inj r' r low hr (len.trans hl.symm) (val.trans hv.symm)]

/-- The recombination from its three sums. -/
theorem recombine_eq (junk : Nat → Char) (HH HL LH LL : List Char) (n : Nat)
    (a1 a2 a3 : List Char)
    (h1 : addhexstr junk (hexlsh HH n) (hexlsh HL (n / 2)) = some a1)
    (h2 : addhexstr junk a1 (hexlsh LH (n / 2)) = some a2)
    (h3 : addhexstr junk a2 LL = some a3) :
    recombine junk HH HL LH LL n = some a3 := by
  simp only [recombine, h1, Option.some_bind, h2, h3]

/-- A worker on two valid operands of two digits, on a platform whose
pipes take the four bytes sent to a child: the four children print the
products of the digits, and the parent prints what `add_leading_zero`
leaves of their recombination; it is killed when that call does not
return. -/
theorem multiply_two_digits (p : Platform) (a1 a2 b1 b2 : Char)
    (ha1 : a1 ∈ hexDigits) (ha2 : a2 ∈ hexDigits) (hb1 : b1 ∈ hexDigits) (hb2 : b2 ∈ hexDigits)
    (hcap : 4 ≤ p.pipe_capacity) :
    multiply p [a1, a2] [b1, b2] =
      some (match recombine p.junk (hexText (digitVal a1 * digitVal b1))
          (hexText (digitVal a1 * digitVal b2)) (hexText (digitVal a2 * digitVal b1))
          (hexText (digitVal a2 * digitVal b2)) 2 with
        | none => Run.aborted
        | some a3 =>
          match add_leading_zero p a3 with
          | none => Run.aborted
          | some line => Run.success (line ++ [NL])) := by
  have hA : ∀ c ∈ [a1, a2], c ∈ hexDigits := by
    intro c hc
    simp only [List.mem_cons, List.mem_singleton, List.not_mem_nil, or_false] at hc
    rcases hc with rfl | rfl
    · exact ha1
    · exact ha2
  have hB : ∀ c ∈ [b1, b2], c ∈ hexDigits := by
    intro c hc
    simp only [List.mem_cons, List.mem_singleton, List.not_mem_nil, or_false] at hc
    rcases hc with rfl | rfl
    · exact hb1
    · exact hb2
  have child : ∀ a ∈ hexDigits, ∀ b ∈ hexDigits,
      worker p 2 (send_child_data [a] [b]) =
        some (Run.success (hexText (digitVal a * digitVal b) ++ [NL])) := by
    intro a ha b hb
    rw [worker_valid p 1 [a] [b] (by simpa using ha) (by simpa using hb) rfl (by simp),
      if_pos (show [a].length = 1 from rfl), (print_product_text a ha b hb).1]
  have hlen : ∀ a ∈ hexDigits, ∀ b ∈ hexDigits,
      (hexText (digitVal a * digitVal b)).length ≤ 2 / 2 * 2 := by
    intro a ha b hb
    rw [(print_product_text a ha b hb).2.1]
    split_ifs <;> omega
  have hlow : ∀ a ∈ hexDigits, ∀ b ∈ hexDigits,
      ∀ c ∈ hexText (digitVal a * digitVal b), c ∈ lowerDigits :=
    fun a ha b hb => (print_product_text a ha b hb).2.2.1
  have hw := worker_fits p 2 [a1, a2] [b1, b2] hA hB rfl (by simp) (by simp) (by simpa using hcap)
  have c0 : worker p 2 (send_child_data (List.take ([a1, a2].length / 2) [a1, a2])
      (List.take ([a1, a2].length / 2) [b1, b2])) =
      some (Run.success (hexText (digitVal a1 * digitVal b1) ++ [NL])) := by
    simpa using child a1 ha1 b1 hb1
  have c1 : worker p 2 (send_child_data (List.take ([a1, a2].length / 2) [a1, a2])
      (List.take ([a1, a2].length / 2) (List.drop ([a1, a2].length / 2) [b1, b2]))) =
      some (Run.success (hexText (digitVal a1 * digitVal b2) ++ [NL])) := by
    simpa using child a1 ha1 b2 hb2
  have c2 : worker p 2 (send_child_data
      (List.take ([a1, a2].length / 2) (List.drop ([a1, a2].length / 2) [a1, a2]))
      (List.take ([a1, a2].length / 2) [b1, b2])) =
      some (Run.success (hexText (digitVal a2 * digitVal b1) ++ [NL])) := by
    simpa using child a2 ha2 b1 hb1
  have c3 : worker p 2 (send_child_data
      (List.take ([a1, a2].length / 2) (List.drop ([a1, a2].length / 2) [a1, a2]))
      (List.take ([a1, a2].length / 2) (List.drop ([a1, a2].length / 2) [b1, b2]))) =
      some (Run.success (hexText (digitVal a2 * digitVal b2) ++ [NL])) := by
    simpa using child a2 ha2 b2 hb2
  show worker p (2 + 1) (send_child_data [a1, a2] [b1, b2]) = _
  rw [hw, c0, c1, c2, c3]
  simp only
  rw [collect_success_form p [a1, a2].length _ _ _ _ (hlow a1 ha1 b1 hb1) (hlow a1 ha1 b2 hb2)
    (hlow a2 ha2 b1 hb1) (hlow a2 ha2 b2 hb2) (hlen a1 ha1 b1 hb1) (hlen a1 ha1 b2 hb2)
    (hlen a2 ha2 b1 hb1) (hlen a2 ha2 b2 hb2)]
  rfl

/-- A worker on two valid operands of two digits whose recombination has
three digits prints what the platform leaves of it in `add_leading_zero`. -/
theorem multiply_two_digits_odd (p : Platform) (a1 a2 b1 b2 : Char) (a3 : List Char)
    (ha1 : a1 ∈ hexDigits) (ha2 : a2 ∈ hexDigits) (hb1 : b1 ∈ hexDigits) (hb2 : b2 ∈ hexDigits)
    (hcap : 4 ≤ p.pipe_capacity)
    (hre : recombine p.junk (hexText (digitVal a1 * digitVal b1))
      (hexText (digitVal a1 * digitVal b2)) (hexText (digitVal a2 * digitVal b1))
      (hexText (digitVal a2 * digitVal b2)) 2 = some a3)
    (h3 : a3.length = 3) :
    multiply p [a1, a2] [b1, b2] =
      some (match p.odd_pad a3 with
        | none => Run.aborted
        | some line => Run.success (line ++ [NL])) := by
  rw [multiply_two_digits p a1 a2 b1 b2 ha1 ha2 hb1 hb2 hcap, hre]
  simp only [add_leading_zero, h3]
  rfl

/-- The worker on "01" and "01": the recombination is "001". -/
theorem multiply_01_01_any (p : Platform) (hcap : 4 ≤ p.pipe_capacity) :
    multiply p "01".toList "01".toList =
      some (match p.odd_pad "001".toList with
        | none => Run.aborted
        | some line => Run.success (line ++ [NL])) :=
  multiply_two_digits_odd p '0' '1' '0' '1' "001".toList (by decide) (by decide) (by decide)
    (by decide) hcap
    (recombine_eq p.junk _ _ _ _ 2 "000".toList "000".toList "001".toList
      (addhexstr_eq _ _ _ _ (by decide)) (addhexstr_eq _ _ _ _ (by decide))
      (addhexstr_eq _ _ _ _ (by decide))) rfl

/-- The worker on "12" and "34": the recombination is "3a8". -/
theorem multiply_12_34 (p : Platform) (hcap : 4 ≤ p.pipe_capacity) :
    multiply p "12".toList "34".toList =
      some (match p.odd_pad "3a8".toList with
        | none => Run.aborted
        | some line => Run.success (line ++ [NL])) :=
  multiply_two_digits_odd p '1' '2' '3' '4' "3a8".toList (by decide) (by decide) (by decide)
    (by decide) hcap
    (recombine_eq p.junk _ _ _ _ 2 "340".toList "3a0".toList "3a8".toList
      (addhexstr_eq _ _ _ _ (by decide)) (addhexstr_eq _ _ _ _ (by decide))
      (addhexstr_eq _ _ _ _ (by decide))) rfl

/-- C1, as stated, fails: "123" and "456" are valid hex strings of equal
length, and the program ends with "input is not even" without a result. -/
theorem C1_no_result_for_length_three :
    (∀ c ∈ "123".toList, c ∈ hexDigits) ∧ (∀ c ∈ "456".toList, c ∈ hexDigits) ∧
    "123".toList.length = "456".toList.length ∧
    ∀ p : Platform, multiply p "123".toList "456".toList =
      some (Run.error [] Diag.input_is_not_even) :=
  ⟨by decide, by decide, by decide, fun p =>
    worker_odd p _ "123".toList "456".toList (by decide) (by decide) (by decide) (by decide)
      (by decide)⟩

/-- C1, amended: for valid hex strings A and B of the same length, when
that length is a power of two, the program prints one line and the line,
read in base 16, is the product of the integers A and B denote; this on a
platform on which `add_leading_zero` leaves a string of three digits with
a '0' in front, and for operands whose n + 2 bytes fit into a pipe. -/
theorem C1_product_on_power_of_two_length (p : Platform) (hp : p.pads_three) (k : Nat)
    (A B : List Char) (lA : A.length = 2 ^ k) (lB : B.length = 2 ^ k)
    (hA : ∀ c ∈ A, c ∈ hexDigits) (hB : ∀ c ∈ B, c ∈ hexDigits)
    (hcap : 1 ≤ k → 2 ^ k + 2 ≤ p.pipe_capacity) :
    ∃ line, multiply p A B = some (Run.success (line ++ [NL])) ∧
      hexval line = hexval A * hexval B := by
  obtain ⟨line, hm, _, hval, _, _⟩ := multiply_pow2 p hp k A B lA lB hA hB hcap
  exact ⟨line, hm, hval⟩

/-- C1, amended, at "1a2b" and "3c4d" (length 4). -/
theorem C1_product_on_power_of_two_length_witness :
    documented.pads_three ∧
    "1a2b".toList.length = 2 ^ 2 ∧ "3c4d".toList.length = 2 ^ 2 ∧
    (∀ c ∈ "1a2b".toList, c ∈ hexDigits) ∧ (∀ c ∈ "3c4d".toList, c ∈ hexDigits) ∧
    (1 ≤ 2 → 2 ^ 2 + 2 ≤ documented.pipe_capacity) ∧
    ∃ line, multiply documented "1a2b".toList "3c4d".toList =
        some (Run.success (line ++ [NL])) ∧
      hexval line = hexval "1a2b".toList * hexval "3c4d".toList :=
  ⟨fun _ _ _ => rfl, by decide, by decide, by decide, by decide, by decide,
    C1_product_on_power_of_two_length documented (fun _ _ _ => rfl) 2 "1a2b".toList
      "3c4d".toList (by decide) (by decide) (by decide) (by decide) (by decide)⟩

/-- C2: for single hex digits a and b (either case) the program prints the
lowercase hexadecimal text of value(a) * value(b) without a leading zero:
one digit when the product is below 16, two digits otherwise. -/
theorem C2_base_case_text (p : Platform) (a b : Char) (ha : a ∈ hexDigits)
    (hb : b ∈ hexDigits) :
    multiply p [a] [b] = some (Run.success (hexText (digitVal a * digitVal b) ++ [NL])) ∧
    (hexText (digitVal a * digitVal b)).length = (if digitVal a * digitVal b < 16 then 1 else 2) ∧
    (∀ c ∈ hexText (digitVal a * digitVal b), c ∈ lowerDigits) ∧
    hexval (hexText (digitVal a * digitVal b)) = digitVal a * digitVal b := by
  obtain ⟨h1, h2, h3, h4⟩ := print_product_text a ha b hb
  exact ⟨by rw [multiply_single p a b ha hb, h1], h2, h3, h4⟩

/-- C2 at "f" and "f": the line is "e1". -/
theorem C2_base_case_text_witness :
    'f' ∈ hexDigits ∧ hexText (digitVal 'f' * digitVal 'f') = ['e', '1'] ∧
    multiply documented ['f'] ['f'] =
      some (Run.success (hexText (digitVal 'f' * digitVal 'f') ++ [NL])) :=
  ⟨by decide, by decide, (C2_base_case_text documented 'f' 'f' (by decide) (by decide)).1⟩

/-- C3, as stated, fails: on "1a2b" and "3c4d", on the platform on which
`add_leading_zero` does what its docstring says, the output line is
"0629f2ef", not "0629e9eb"; and so it is on every platform that pads the
three-digit sums of the four workers of length 2. -/
theorem C3_output_is_not_0629e9eb :
    multiply documented "1a2b".toList "3c4d".toList =
      some (Run.success ("0629f2ef".toList ++ [NL])) ∧
    ∀ p : Platform, p.pads_three → 6 ≤ p.pipe_capacity →
      multiply p "1a2b".toList "3c4d".toList ≠
        some (Run.success ("0629e9eb".toList ++ [NL])) := by
  refine ⟨multiply_1a2b_3c4d documented (fun _ _ _ => rfl) (by decide), ?_⟩
  intro p hp hcap
  rw [multiply_1a2b_3c4d p hp hcap]
  decide

/-- C3, amended: on "1a2b" and "3c4d" the output line is exactly
"0629f2ef", which is 6699 * 15437 = 103412463 in base 16; this on a
platform on which `add_leading_zero` leaves a string of three digits with
a '0' in front (the four workers of length 2 have the sums "618", "7d2",
"a14" and "cef") and whose pipes take the six bytes sent to a child. -/
theorem C3_output_is_0629f2ef (p : Platform) (hp : p.pads_three) (hcap : 6 ≤ p.pipe_capacity) :
    multiply p "1a2b".toList "3c4d".toList = some (Run.success ("0629f2ef".toList ++ [NL])) ∧
    hexval "1a2b".toList = 6699 ∧ hexval "3c4d".toList = 15437 ∧
    hexval "0629f2ef".toList = 6699 * 15437 :=
  ⟨multiply_1a2b_3c4d p hp hcap, by decide, by decide, by decide⟩

/-- C3, amended, on the platform that follows the docstring. -/
theorem C3_output_is_0629f2ef_witness :
    documented.pads_three ∧ 6 ≤ documented.pipe_capacity ∧
    multiply documented "1a2b".toList "3c4d".toList =
      some (Run.success ("0629f2ef".toList ++ [NL])) :=
  ⟨fun _ _ _ => rfl, by decide,
    (C3_output_is_0629f2ef documented (fun _ _ _ => rfl) (by decide)).1⟩

/-- When A is n digits '0' (n at least 2), B is any valid n-digit string
and the program succeeds, the output line is exactly 2n digits '0', on a
platform that pads strings of three digits. -/
theorem zero_times_anything (p : Platform) (hp : p.pads_three) (n : Nat) (hn : 2 ≤ n)
    (B : List Char) (lB : B.length = n) (hB : ∀ c ∈ B, c ∈ hexDigits) (out : List Char)
    (hs : multiply p (List.replicate n '0') B = some (Run.success out)) :
    out = List.replicate (2 * n) '0' ++ [NL] := by
  have hne : out ≠ [] := by
    intro he
    subst he
    by_cases hpow : ∃ k, (List.replicate n '0').length = 2 ^ k
    · obtain ⟨k, hk⟩ := hpow
      have hk1 : 1 ≤ k := pow2_ge_two _ k hk (by simpa using hn)
      by_cases hcap : p.pipe_capacity < (List.replicate n '0').length + 2
      · have heven : (List.replicate n '0').length % 2 = 0 := by
          obtain ⟨j, rfl⟩ : ∃ j, k = j + 1 := ⟨k - 1, by omega⟩
          rw [hk, pow_succ]
          omega
        rw [multiply_blocks p _ B (by simp [lB]) (by simpa using hn) heven
          (replicate_zero_hex n) hB hcap] at hs
        simp at hs
      · obtain ⟨line, hm, _⟩ := multiply_pow2 p hp k (List.replicate n '0') B hk
          (by rw [lB, ← hk]; simp) (replicate_zero_hex n) hB (fun _ => by rw [← hk]; omega)
        rw [hm] at hs
        simp at hs
    · rcases multiply_not_pow2 p (List.replicate n '0') B (by simp [lB])
        (by simp; omega) (replicate_zero_hex n) hB hpow with ⟨d, hm⟩ | ⟨hm, _⟩
      · rw [hm] at hs
        simp at hs
      · rw [hm] at hs
        simp at hs
  obtain ⟨line, hr, hlow, hval, hl⟩ := multiply_output p hp (List.replicate n '0') B
    (by simp [lB]) (by simpa using hn) (replicate_zero_hex n) hB _ hs (by
      simpa [Run.stdout] using hne)
  simp only [Run.success.injEq] at hr
  rw [hr]
  congr 1
  apply hexval_inj line _ hlow (replicate_zero_lower _)
  · simpa using hl
  · rw [hval, hexval_replicate_zero, hexval_replicate_zero, Nat.zero_mul]

/-- Whatever the program prints on valid operands (either digit case) is
one line made of lowercase hex digits only, on a platform that pads
strings of three digits. -/
theorem output_is_lowercase (p : Platform) (hp : p.pads_three) (A B : List Char)
    (hlen : A.length = B.length) (hpos : 1 ≤ A.length)
    (hA : ∀ c ∈ A, c ∈ hexDigits) (hB : ∀ c ∈ B, c ∈ hexDigits)
    (r : Run) (hr : multiply p A B = some r) (hout : r.stdout ≠ []) :
    ∃ line, r.stdout = line ++ [NL] ∧ ∀ c ∈ line, c ∈ lowerDigits := by
  by_cases h1 : A.length = 1
  · obtain ⟨a, rfl⟩ := length_one_eq A h1
    obtain ⟨b, rfl⟩ := length_one_eq B (by rw [← hlen, h1])
    have ha := hA a (List.mem_singleton.mpr rfl)
    have hb := hB b (List.mem_singleton.mpr rfl)
    obtain ⟨e, _, low, _⟩ := print_product_text a ha b hb
    rw [multiply_single p a b ha hb, e] at hr
    rw [← Option.some.inj hr]
    exact ⟨_, rfl, low⟩
  · obtain ⟨line, e, low, _, _⟩ := multiply_output p hp A B hlen (by omega) hA hB r hr hout
    rw [e]
    exact ⟨line, rfl, low⟩

/-- C6, as stated, fails: on the valid top-level input "3" and "4" the
program prints the line "c", which has an odd number of digits. -/
theorem C6_single_digit_line_is_odd :
    (∀ p : Platform, multiply p ['3'] ['4'] = some (Run.success (['c'] ++ [NL]))) ∧
    ['c'].length % 2 = 1 :=
  ⟨fun p => by rw [multiply_single p '3' '4' (by decide) (by decide)]; decide, by decide⟩

/-- C6, amended: for valid top-level operands of length n at least 2,
whatever the program prints is one line with an even number of digits
(it has 2n digits); this on a platform on which `add_leading_zero` leaves
a string of three digits with a '0' in front. -/
theorem C6_even_digit_count_from_length_two (p : Platform) (hp : p.pads_three)
    (A B : List Char) (hlen : A.length = B.length) (hn : 2 ≤ A.length)
    (hA : ∀ c ∈ A, c ∈ hexDigits) (hB : ∀ c ∈ B, c ∈ hexDigits)
    (r : Run) (hr : multiply p A B = some r) (hout : r.stdout ≠ []) :
    ∃ line, r.stdout = line ++ [NL] ∧ line.length % 2 = 0 ∧ line.length = 2 * A.length := by
  obtain ⟨line, e, _, _, hl⟩ := multiply_output p hp A B hlen hn hA hB r hr hout
  rw [e]
  exact ⟨line, rfl, by omega, hl⟩

/-- C6, amended, at "ff" and "01": the line "00ff" has four digits. -/
theorem C6_even_digit_count_from_length_two_witness :
    documented.pads_three ∧
    "ff".toList.length = "01".toList.length ∧ 2 ≤ "ff".toList.length ∧
    (∀ c ∈ "ff".toList, c ∈ hexDigits) ∧ (∀ c ∈ "01".toList, c ∈ hexDigits) ∧
    multiply documented "ff".toList "01".toList =
      some (Run.success ("00ff".toList ++ [NL])) ∧
    ∃ line, (Run.success ("00ff".toList ++ [NL])).stdout = line ++ [NL] ∧
      line.length % 2 = 0 ∧ line.length = 2 * "ff".toList.length :=
  ⟨fun _ _ _ => rfl, by decide, by decide, by decide, by decide, by decide,
    C6_even_digit_count_from_length_two documented (fun _ _ _ => rfl) "ff".toList "01".toList
      (by decide) (by decide) (by decide) (by decide) (Run.success ("00ff".toList ++ [NL]))
      (by decide) (by decide)⟩

/-- C7: after `sanitize_input` has removed one trailing newline from each
line, `validate_input` reports "no input given" exactly when a line is
empty; otherwise "A and B don't have equal length" exactly when the
lengths differ; otherwise "input contained invalid character" exactly
when some character of either line is outside [0-9a-fA-F]; and it returns
normally exactly when none of the three holds.  So ""/"12" is the first
error, "ab"/"a" the second and "g1"/"1a" the third. -/
theorem C7_validation_order (A_raw B_raw : List Char) :
    (sanitize_input (A_raw ++ [NL]) (B_raw ++ [NL]) = (A_raw, B_raw)) ∧
    (A_raw.getLast? ≠ some NL → B_raw.getLast? ≠ some NL →
      sanitize_input A_raw B_raw = (A_raw, B_raw)) ∧
    (validate_input (sanitize_input A_raw B_raw).1 (sanitize_input A_raw B_raw).2 =
        some Diag.no_input_given ↔
      ((sanitize_input A_raw B_raw).1 = [] ∨ (sanitize_input A_raw B_raw).2 = [])) ∧
    (validate_input (sanitize_input A_raw B_raw).1 (sanitize_input A_raw B_raw).2 =
        some Diag.no_equal_length ↔
      ((sanitize_input A_raw B_raw).1 ≠ [] ∧ (sanitize_input A_raw B_raw).2 ≠ [] ∧
        (sanitize_input A_raw B_raw).1.length ≠ (sanitize_input A_raw B_raw).2.length)) ∧
    (validate_input (sanitize_input A_raw B_raw).1 (sanitize_input A_raw B_raw).2 =
        some Diag.invalid_character ↔
      ((sanitize_input A_raw B_raw).1 ≠ [] ∧ (sanitize_input A_raw B_raw).2 ≠ [] ∧
        (sanitize_input A_raw B_raw).1.length = (sanitize_input A_raw B_raw).2.length ∧
        ∃ c, (c ∈ (sanitize_input A_raw B_raw).1 ∨ c ∈ (sanitize_input A_raw B_raw).2) ∧
          c ∉ hexDigits)) ∧
    (validate_input (sanitize_input A_raw B_raw).1 (sanitize_input A_raw B_raw).2 = none ↔
      ((sanitize_input A_raw B_raw).1 ≠ [] ∧ (sanitize_input A_raw B_raw).2 ≠ [] ∧
        (sanitize_input A_raw B_raw).1.length = (sanitize_input A_raw B_raw).2.length ∧
        ∀ c, (c ∈ (sanitize_input A_raw B_raw).1 ∨ c ∈ (sanitize_input A_raw B_raw).2) →
          c ∈ hexDigits)) ∧
    validate_input (sanitize_input "".toList "12".toList).1 (sanitize_input "".toList "12".toList).2
      = some Diag.no_input_given ∧
    validate_input (sanitize_input "ab".toList "a".toList).1
      (sanitize_input "ab".toList "a".toList).2 = some Diag.no_equal_length ∧
    validate_input (sanitize_input "g1".toList "1a".toList).1
      (sanitize_input "g1".toList "1a".toList).2 = some Diag.invalid_character := by
  obtain ⟨h1, h2, h3, h4⟩ :=
    validate_input_cases (sanitize_input A_raw B_raw).1 (sanitize_input A_raw B_raw).2
  refine ⟨?_, ?_, h1, h2, h3, h4, by decide, by decide, by decide⟩
  · simp only [sanitize_input, sanitize_one_append_nl]
  · intro ha hb
    simp only [sanitize_input, sanitize_one, if_neg ha, if_neg hb]

/-- C8: valid operands whose common length is odd and above 1 make the
program end with "input is not even" and nothing printed; this is decided
with fuel for one process only, that is, before any child is started. -/
theorem C8_odd_length_is_rejected (p : Platform) (A B : List Char)
    (hlen : A.length = B.length) (hA : ∀ c ∈ A, c ∈ hexDigits) (hB : ∀ c ∈ B, c ∈ hexDigits)
    (hodd : A.length % 2 = 1) (hgt : 1 < A.length) :
    worker p 1 (send_child_data A B) = some (Run.error [] Diag.input_is_not_even) ∧
    multiply p A B = some (Run.error [] Diag.input_is_not_even) :=
  ⟨worker_odd p 0 A B hlen hA hB hodd hgt, worker_odd p _ A B hlen hA hB hodd hgt⟩

/-- C8 at "abc" and "123". -/
theorem C8_odd_length_is_rejected_witness :
    "abc".toList.length = "123".toList.length ∧ (∀ c ∈ "abc".toList, c ∈ hexDigits) ∧
    (∀ c ∈ "123".toList, c ∈ hexDigits) ∧ "abc".toList.length % 2 = 1 ∧
    1 < "abc".toList.length ∧
    worker documented 1 (send_child_data "abc".toList "123".toList) =
      some (Run.error [] Diag.input_is_not_even) ∧
    multiply documented "abc".toList "123".toList =
      some (Run.error [] Diag.input_is_not_even) :=
  ⟨by decide, by decide, by decide, by decide, by decide,
    C8_odd_length_is_rejected documented "abc".toList "123".toList (by decide) (by decide)
      (by decide) (by decide) (by decide)⟩

/-- C9, as stated, fails: a parent of four children (operand length 4,
operands "0203" and "0304") whose four lines are all readable, the first
child having ended with "waitpid failed" after printing its line, prints
the product line "0006110c" and then ends with "wait for child failed". -/
theorem C9_product_line_then_failure :
    collect documented 4
        (Run.error ("0006".toList ++ [NL]) Diag.waitpid_failed)
        (Run.success ("0008".toList ++ [NL])) (Run.success ("0009".toList ++ [NL]))
        (Run.success ("000c".toList ++ [NL]))
      = Run.error ("0006110c".toList ++ [NL]) Diag.wait_for_child_failed := by
  decide

/-- C9, amended: a parent that ends in failure has printed nothing when
the failure is an unreadable child line; when the failure is a child's
exit status, all four lines were readable and the product line is already
printed.  Over runs of the program itself (children included) a failing
run has printed nothing. -/
theorem C9_failure_and_output :
    (∀ (p : Platform) (n : Nat) (c0 c1 c2 c3 : Run) (out : List Char) (d : Diag),
      collect p n c0 c1 c2 c3 = Run.error out d →
        (d = Diag.read_results_failed ∧ out = []) ∨
        (d = Diag.wait_for_child_failed ∧ (∃ line, out = line ++ [NL]) ∧
          c0.stdout ≠ [] ∧ c1.stdout ≠ [] ∧ c2.stdout ≠ [] ∧ c3.stdout ≠ [] ∧
          (wait_for_termination c0 ≠ 0 ∨ wait_for_termination c1 ≠ 0 ∨
            wait_for_termination c2 ≠ 0 ∨ wait_for_termination c3 ≠ 0))) ∧
    (∀ (p : Platform) (fuel : Nat) (stdin out : List Char) (d : Diag),
      worker p fuel stdin = some (Run.error out d) → out = []) :=
  ⟨collect_error, worker_fails_silently⟩

set_option maxRecDepth 1000000 in
/-- C10: the sum of sixty-eight digits 'f' and "1" is 16 ^ 68, but when
the byte after the stored carry digit (offset 69, never written by the
program) is '7', `addhexstr` returns "71" followed by 67 zeros. -/
theorem C10_addhexstr_reads_past_carry :
    addhexstr (fun i => if i = 69 then '7' else NUL) (List.replicate 68 'f') ['1'] =
      some ('7' :: '1' :: List.replicate 67 '0') ∧
    hexval ('7' :: '1' :: List.replicate 67 '0') ≠
      hexval (List.replicate 68 'f') + hexval ['1'] := by
  decide

/-! ## Lengths that are not a power of two -/

theorem odd_factor (n : Nat) (hn : 1 ≤ n) (hnp : ¬ ∃ k, n = 2 ^ k) :
    ∃ j m, n = 2 ^ j * m ∧ m % 2 = 1 ∧ 1 < m := by
  obtain ⟨j, m, hodd, hnm⟩ := Nat.exists_eq_two_pow_mul_odd (by omega : n ≠ 0)
  refine ⟨j, m, hnm, Nat.odd_iff.mp hodd, ?_⟩
  by_contra hle
  have hm1 : m = 1 := by
    have := Nat.odd_iff.mp hodd
    omega
  exact hnp ⟨j, by rw [hnm, hm1, Nat.mul_one]⟩

/-! ## The claims on the single functions and on the recursion -/

/-- For hex digit strings s1 and s2 and m the larger of their lengths,
every result of `addhexstr` has m + 1 digits when value(s1) + value(s2)
is at least 16 ^ m and exactly m digits otherwise, so it is never shorter
than the longer operand (leading zeros stay); the function does return a
result whenever m is at most 67 or there is no final carry. -/
theorem addhexstr_result_width (junk : Nat → Char) (s1 s2 : List Char)
    (v1 : ∀ c ∈ s1, c ∈ hexDigits) (v2 : ∀ c ∈ s2, c ∈ hexDigits) :
    (∀ r, addhexstr junk s1 s2 = some r →
      r.length = (if 16 ^ max s1.length s2.length ≤ hexval s1 + hexval s2
        then max s1.length s2.length + 1 else max s1.length s2.length) ∧
      max s1.length s2.length ≤ r.length) ∧
    ((max s1.length s2.length ≤ 67 ∨ hexval s1 + hexval s2 < 16 ^ max s1.length s2.length) →
      ∃ r, addhexstr junk s1 s2 = some r) := by
  constructor
  · intro r hr
    have := addhexstr_length junk s1 s2 v1 v2 r hr
    constructor
    · rw [this]
      split_ifs <;> first | rfl | omega
    · rw [this]
      split_ifs <;> omega
  · intro h
    obtain ⟨r, hr, _⟩ := addhexstr_spec junk s1 s2 v1 v2 h
    exact ⟨r, hr⟩

/-- C12: for every string x and every k, `hexlsh x k` is x followed by
exactly k characters '0'; its length is len(x) + k, its value is
value(x) * 16 ^ k, and `hexlsh x 0` is x. -/
theorem C12_hexlsh_appends_zeros (x : List Char) (k : Nat) :
    hexlsh x k = x ++ List.replicate k '0' ∧ (hexlsh x k).length = x.length + k ∧
    hexval (hexlsh x k) = hexval x * 16 ^ k ∧ hexlsh x 0 = x ∧ hexval (hexlsh x 0) = hexval x :=
  ⟨rfl, hexlsh_length x k, hexval_hexlsh x k, by simp [hexlsh], by simp [hexlsh]⟩

/-- C13: for every character c, `hextodec c` is the digit value the
specification gives ('0'..'9' to 0..9, 'a'..'f' and 'A'..'F' to 10..15),
which lies in 0..15, when c is in [0-9a-fA-F], and it is -1 for every
other character; so the result is in 0..15 exactly for the characters of
that class. -/
theorem C13_hextodec_digit_value (c : Char) :
    (∀ v, digitValue c = some v → hextodec c = (v : Int) ∧ v ≤ 15) ∧
    (digitValue c = none → hextodec c = -1) ∧
    ((0 ≤ hextodec c ∧ hextodec c ≤ 15) ↔ (digitValue c).isSome = true) ∧
    ((digitValue c).isSome = true ↔ c ∈ hexDigits) ∧
    digitValue '0' = some 0 ∧ digitValue '9' = some 9 ∧ digitValue 'a' = some 10 ∧
    digitValue 'f' = some 15 ∧ digitValue 'A' = some 10 ∧ digitValue 'F' = some 15 ∧
    digitValue 'g' = none ∧ digitValue NL = none := by
  obtain ⟨h1, h2⟩ := digitValue_spec c
  have key : (digitValue c).isSome = true ↔ hextodec c ≠ -1 := by
    cases hd : digitValue c with
    | none => simp [h2 hd]
    | some v =>
      have := (h1 v hd).1
      simp only [Option.isSome_some, true_iff]
      rw [this]
      omega
  refine ⟨h1, h2, ?_, ?_, by decide, by decide, by decide, by decide, by decide, by decide,
    by decide, by decide⟩
  · rw [key]
    constructor
    · intro h
      omega
    · intro h
      have hm := hexDigits_spec c (hextodec_mem c h)
      exact ⟨hm.1, hm.2.1⟩
  · rw [key]
    constructor
    · exact hextodec_mem c
    · intro h
      exact (hexDigits_spec c h).2.2.1

/-- Whatever the program prints on valid n-digit operands is one line of
at most 2n digits, and the parent's `fgets` of at most 2n characters (its
own operand length) followed by the newline removal returns that line
whole; this on a platform that pads strings of three digits. -/
theorem product_fits_parent_row (p : Platform) (hp : p.pads_three) (A B : List Char)
    (hlen : A.length = B.length) (hpos : 1 ≤ A.length)
    (hA : ∀ c ∈ A, c ∈ hexDigits) (hB : ∀ c ∈ B, c ∈ hexDigits)
    (r : Run) (hr : multiply p A B = some r) (hout : r.stdout ≠ []) :
    ∃ line, r.stdout = line ++ [NL] ∧ line.length ≤ 2 * A.length ∧
      read_result A.length r = some line := by
  by_cases h1 : A.length = 1
  · obtain ⟨a, rfl⟩ := length_one_eq A h1
    obtain ⟨b, rfl⟩ := length_one_eq B (by rw [← hlen, h1])
    have ha := hA a (List.mem_singleton.mpr rfl)
    have hb := hB b (List.mem_singleton.mpr rfl)
    obtain ⟨e, hl, low, _⟩ := print_product_text a ha b hb
    rw [multiply_single p a b ha hb, e] at hr
    rw [← Option.some.inj hr]
    have hle : (hexText (digitVal a * digitVal b)).length ≤ 2 := by
      rw [hl]
      split_ifs <;> omega
    exact ⟨_, rfl, by simpa using hle, read_result_line 1 _ low (by simpa using hle)⟩
  · obtain ⟨line, e, low, _, hl⟩ := multiply_output p hp A B hlen (by omega) hA hB r hr hout
    rw [e]
    exact ⟨line, rfl, by omega, read_result_line A.length line low (by omega)⟩

/-- The run of the program on "01" and "01", on a platform that pads
strings of three digits and whose pipes take four bytes. -/
theorem multiply_01_01 (p : Platform) (hp : p.pads_three) (hcap : 4 ≤ p.pipe_capacity) :
    multiply p "01".toList "01".toList = some (Run.success ("0001".toList ++ [NL])) := by
  obtain ⟨line, hr, hlow, hval, _, hlen⟩ := multiply_pow2 p hp 1 "01".toList "01".toList
    (by decide) (by decide) (by decide) (by decide) (fun _ => by norm_num; omega)
  have : line = "0001".toList := by
    apply hexval_inj line _ hlow (by decide)
    · rw [hlen (by norm_num)]
      decide
    · rw [hval]
      decide
  rw [hr, this]

/-- C16, as stated, fails: the worker on "01" and "01" is the sub-worker
(Al, Bl) of the run on "0001" and "0001"; its four partial products are
"0", "0", "0", "1" and their recombination is "001".  On every platform
(with pipes of four bytes or more) this sub-worker prints what
`add_leading_zero` leaves of "001", not "001" as it is; on the platform
on which `add_leading_zero` does what its docstring says, as on every
platform that pads strings of three digits, it prints the padded
"0001". -/
theorem C16_sub_worker_pads :
    ("0001".toList.drop 2).take 2 = "01".toList ∧
    recombine documented.junk "0".toList "0".toList "0".toList "1".toList 2 = some "001".toList ∧
    (∀ p : Platform, 4 ≤ p.pipe_capacity →
      multiply p "01".toList "01".toList =
        some (match p.odd_pad "001".toList with
          | none => Run.aborted
          | some line => Run.success (line ++ [NL]))) ∧
    add_leading_zero documented "001".toList = some "0001".toList ∧
    multiply documented "01".toList "01".toList = some (Run.success ("0001".toList ++ [NL])) ∧
    "0001".toList ≠ "001".toList ∧
    ∀ p : Platform, p.pads_three → 4 ≤ p.pipe_capacity →
      multiply p "01".toList "01".toList = some (Run.success ("0001".toList ++ [NL])) :=
  ⟨by decide, by decide, multiply_01_01_any, by decide, by decide, by decide, multiply_01_01⟩

/-- C16, amended: in the recursive case (operand length 2 ^ (k + 1)) a
worker, at every level of the recursion, calls `add_leading_zero` on the
recombination addHex(addHex(addHex(shiftLeft(HH, n), shiftLeft(HL, n/2)),
shiftLeft(LH, n/2)), LL) of its four sub-workers' lines and prints the
outcome; the sub-workers are runs of the same program and do the same.
From length 4 on the recombination already has 2n digits and is printed
as it is; for operand length 2 it has 3 or 4 digits.  This on a platform
on which `add_leading_zero` leaves a string of three digits with a '0' in
front, and for operands whose n + 2 bytes fit into a pipe. -/
theorem C16_every_worker_pads (p : Platform) (hp : p.pads_three) (k : Nat) (A B : List Char)
    (lA : A.length = 2 ^ (k + 1)) (lB : B.length = 2 ^ (k + 1))
    (hA : ∀ c ∈ A, c ∈ hexDigits) (hB : ∀ c ∈ B, c ∈ hexDigits)
    (hcap : 2 ^ (k + 1) + 2 ≤ p.pipe_capacity) :
    ∃ HH HL LH LL a3 line,
      multiply p (A.take (A.length / 2)) (B.take (A.length / 2))
        = some (Run.success (HH ++ [NL])) ∧
      multiply p (A.take (A.length / 2)) ((B.drop (A.length / 2)).take (A.length / 2))
        = some (Run.success (HL ++ [NL])) ∧
      multiply p ((A.drop (A.length / 2)).take (A.length / 2)) (B.take (A.length / 2))
        = some (Run.success (LH ++ [NL])) ∧
      multiply p ((A.drop (A.length / 2)).take (A.length / 2))
          ((B.drop (A.length / 2)).take (A.length / 2))
        = some (Run.success (LL ++ [NL])) ∧
      recombine p.junk HH HL LH LL A.length = some a3 ∧
      add_leading_zero p a3 = some line ∧
      multiply p A B = some (Run.success (line ++ [NL])) ∧
      (1 ≤ k → line = a3 ∧ a3.length = 2 * A.length) ∧
      (k = 0 → (a3.length = 3 ∧ line = '0' :: a3) ∨ (a3.length = 4 ∧ line = a3)) := by
  obtain ⟨HH, HL, LH, LL, a3, line, r0, r1, r2, r3, hre, pe, hw, _, _, _, _, _, hlow, hlo, hup,
    hHH, _, _, _⟩ := multiply_step p hp k A B lA lB hA hB hcap
  obtain ⟨l0, e0, _, _, b0, _⟩ := multiply_pow2 p hp k (A.take (A.length / 2))
    (B.take (A.length / 2))
    (by rw [List.length_take, lA, pow_succ]; omega)
    (by rw [List.length_take, lA, lB, pow_succ]; omega)
    (fun c hc => hA c (List.mem_of_mem_take hc)) (fun c hc => hB c (List.mem_of_mem_take hc))
    (fun _ => by rw [pow_succ] at hcap; omega)
  refine ⟨HH, HL, LH, LL, a3, line, r0, r1, r2, r3, hre, pe, hw, ?_, ?_⟩
  · intro hk
    have hl : a3.length = 2 * A.length := by
      have := hHH hk
      omega
    refine ⟨?_, hl⟩
    rw [add_leading_zero_even p a3 (by omega)] at pe
    exact (Option.some.inj pe).symm
  · intro hk
    subst hk
    rw [r0] at e0
    have hl0 : HH = l0 := by
      have := Option.some.inj e0
      simp only [Run.success.injEq] at this
      exact List.append_cancel_right this
    have := (b0 rfl).1
    rw [← hl0] at this
    have hA2 : A.length = 2 := by rw [lA]; rfl
    have h34 : a3.length = 3 ∨ a3.length = 4 := by omega
    rcases h34 with h3 | h4
    · left
      refine ⟨h3, ?_⟩
      have : add_leading_zero p a3 = some ('0' :: a3) := by
        unfold add_leading_zero
        rw [if_pos (by omega)]
        exact hp a3 h3 hlow
      rw [this] at pe
      exact (Option.some.inj pe).symm
    · right
      refine ⟨h4, ?_⟩
      rw [add_leading_zero_even p a3 (by omega)] at pe
      exact (Option.some.inj pe).symm

/-- C16, amended, at "01" and "01" (k = 0). -/
theorem C16_every_worker_pads_witness :
    documented.pads_three ∧
    "01".toList.length = 2 ^ (0 + 1) ∧ (∀ c ∈ "01".toList, c ∈ hexDigits) ∧
    2 ^ (0 + 1) + 2 ≤ documented.pipe_capacity ∧
    ∃ HH HL LH LL a3 line,
      multiply documented ("01".toList.take ("01".toList.length / 2))
          ("01".toList.take ("01".toList.length / 2))
        = some (Run.success (HH ++ [NL])) ∧
      multiply documented ("01".toList.take ("01".toList.length / 2))
          (("01".toList.drop ("01".toList.length / 2)).take ("01".toList.length / 2))
        = some (Run.success (HL ++ [NL])) ∧
      multiply documented
          (("01".toList.drop ("01".toList.length / 2)).take ("01".toList.length / 2))
          ("01".toList.take ("01".toList.length / 2))
        = some (Run.success (LH ++ [NL])) ∧
      multiply documented
          (("01".toList.drop ("01".toList.length / 2)).take ("01".toList.length / 2))
          (("01".toList.drop ("01".toList.length / 2)).take ("01".toList.length / 2))
        = some (Run.success (LL ++ [NL])) ∧
      recombine documented.junk HH HL LH LL "01".toList.length = some a3 ∧
      add_leading_zero documented a3 = some line ∧
      multiply documented "01".toList "01".toList = some (Run.success (line ++ [NL])) ∧
      (1 ≤ 0 → line = a3 ∧ a3.length = 2 * "01".toList.length) ∧
      (0 = 0 → (a3.length = 3 ∧ line = '0' :: a3) ∨ (a3.length = 4 ∧ line = a3)) :=
  ⟨fun _ _ _ => rfl, by decide, by decide, by decide,
    C16_every_worker_pads documented (fun _ _ _ => rfl) 0 "01".toList "01".toList (by decide)
      (by decide) (by decide) (by decide) (by decide)⟩

/-- On a platform that pads strings of three digits, on every valid input
pair (non-empty, equal length, hex digits only) that fits into a pipe the
run ends, with a product line or with a failure; any fuel from the operand
length on gives that same run; the two halves a worker passes on are
strictly shorter than its operands, and operands of length 1 are answered
by one process alone. -/
theorem multiply_terminates (p : Platform) (hp : p.pads_three) (A B : List Char)
    (hlen : A.length = B.length) (hpos : 1 ≤ A.length)
    (hA : ∀ c ∈ A, c ∈ hexDigits) (hB : ∀ c ∈ B, c ∈ hexDigits)
    (hcap : A.length + 2 ≤ p.pipe_capacity) :
    (∃ r, multiply p A B = some r ∧
      ((∃ line, r = Run.success (line ++ [NL])) ∨ ∃ d, r = Run.error [] d)) ∧
    (∀ fuel, A.length ≤ fuel → worker p fuel (send_child_data A B) = multiply p A B) ∧
    (2 ≤ A.length →
      (A.take (A.length / 2)).length < A.length ∧
      ((A.drop (A.length / 2)).take (A.length / 2)).length < A.length ∧
      (B.take (A.length / 2)).length < B.length ∧
      ((B.drop (A.length / 2)).take (A.length / 2)).length < B.length) ∧
    (A.length = 1 → worker p 1 (send_child_data A B) = multiply p A B) := by
  refine ⟨multiply_ends p hp A B hlen hpos hA hB hcap,
    fun fuel hf => worker_eq_multiply p fuel A B hlen hpos hA hB hf, ?_,
    fun h1 => worker_eq_multiply p 1 A B hlen hpos hA hB (by omega)⟩
  intro h2
  simp only [List.length_take, List.length_drop]
  omega

/-- C17 at two operands of 65536 digits '1': `send_child_data` has 65538
bytes to write into the first child's pipe before that child exists, the
pipe takes 65536, and the run never ends; so on every platform whose pipes
take no more than that. -/
theorem C17_write_before_fork_never_returns :
    (∀ c ∈ List.replicate 65536 '1', c ∈ hexDigits) ∧
    (List.replicate 65536 '1').length = 2 ^ 16 ∧
    (send_child_data ((List.replicate 65536 '1').take ((List.replicate 65536 '1').length / 2))
      ((List.replicate 65536 '1').take ((List.replicate 65536 '1').length / 2))).length = 65538 ∧
    documented.pipe_capacity = 65536 ∧
    multiply documented (List.replicate 65536 '1') (List.replicate 65536 '1') =
      some Run.blocked ∧
    ∀ p : Platform, p.pipe_capacity ≤ 65536 →
      multiply p (List.replicate 65536 '1') (List.replicate 65536 '1') = some Run.blocked := by
  have hv : ∀ c ∈ List.replicate 65536 '1', c ∈ hexDigits := by
    intro c hc
    rw [List.eq_of_mem_replicate hc]
    decide
  have hl : (List.replicate 65536 '1').length = 65536 := List.length_replicate _ _
  have hb : ∀ p : Platform, p.pipe_capacity ≤ 65536 →
      multiply p (List.replicate 65536 '1') (List.replicate 65536 '1') = some Run.blocked :=
    fun p hp => multiply_blocks p _ _ rfl (by rw [hl]; omega) (by rw [hl]) hv hv
      (by rw [hl]; omega)
  refine ⟨hv, by rw [hl]; norm_num, ?_, rfl, hb documented (le_refl _), hb⟩
  rw [send_child_data_length _ _ rfl (by rw [hl]), hl]

/-- On a platform that pads strings of three digits, on validated operands
of common length n that fit into a pipe the program prints a product line
exactly when n is a power of two; for every other n it ends in failure
with nothing printed, and n = 2 ^ j * m with m odd and above 1, so that
the sub-worker at depth j on the first m digits of A and B ends with
"input is not even". -/
theorem success_iff_power_of_two (p : Platform) (hp : p.pads_three) (A B : List Char)
    (hlen : A.length = B.length) (hpos : 1 ≤ A.length)
    (hA : ∀ c ∈ A, c ∈ hexDigits) (hB : ∀ c ∈ B, c ∈ hexDigits)
    (hcap : A.length + 2 ≤ p.pipe_capacity) :
    ((∃ line, multiply p A B = some (Run.success (line ++ [NL]))) ↔
      ∃ k, A.length = 2 ^ k) ∧
    ((¬ ∃ k, A.length = 2 ^ k) →
      (∃ d, multiply p A B = some (Run.error [] d)) ∧
      ∃ j m, A.length = 2 ^ j * m ∧ m % 2 = 1 ∧ 1 < m ∧
        multiply p (A.take m) (B.take m) = some (Run.error [] Diag.input_is_not_even)) := by
  have hfail : (¬ ∃ k, A.length = 2 ^ k) → ∃ d, multiply p A B = some (Run.error [] d) := by
    intro hnp
    rcases multiply_not_pow2 p A B hlen hpos hA hB hnp with h | ⟨_, hlt⟩
    · exact h
    · omega
  constructor
  · constructor
    · rintro ⟨line, hl⟩
      by_contra hnp
      obtain ⟨d, hd⟩ := hfail hnp
      rw [hd] at hl
      exact absurd hl (by simp)
    · rintro ⟨k, hk⟩
      obtain ⟨line, hl, _⟩ := multiply_pow2 p hp k A B hk (by rw [← hlen, hk]) hA hB
        (fun _ => by rw [← hk]; exact hcap)
      exact ⟨line, hl⟩
  · intro hnp
    refine ⟨hfail hnp, ?_⟩
    obtain ⟨j, m, hnm, hodd, hgt⟩ := odd_factor A.length hpos hnp
    have hle : m ≤ A.length := by
      rw [hnm]
      exact Nat.le_mul_of_pos_left m (Nat.two_pow_pos j)
    have lAm : (A.take m).length = m := by rw [List.length_take]; omega
    have lBm : (B.take m).length = m := by rw [List.length_take]; omega
    refine ⟨j, m, hnm, hodd, hgt, ?_⟩
    exact worker_odd p _ (A.take m) (B.take m) (by rw [lAm, lBm])
      (fun c hc => hA c (List.mem_of_mem_take hc)) (fun c hc => hB c (List.mem_of_mem_take hc))
      (by rw [lAm]; exact hodd) (by rw [lAm]; exact hgt)

/-- On a platform that pads strings of three digits: for valid hex strings
A and B of the same power-of-two length n that fit into a pipe the program
prints a line whose value is value(A) * value(B).  For n at least 2 this
comes about as follows: A and B are their two halves put together, the
four sub-workers run on (Ah, Bh), (Ah, Bl), (Al, Bh), (Al, Bl) and print
the four products, and the value of the parent's line is
HH * 16 ^ n + HL * 16 ^ (n/2) + LH * 16 ^ (n/2) + LL. -/
theorem product_by_split_and_shift (p : Platform) (hp : p.pads_three) (k : Nat)
    (A B : List Char) (lA : A.length = 2 ^ k) (lB : B.length = 2 ^ k)
    (hA : ∀ c ∈ A, c ∈ hexDigits) (hB : ∀ c ∈ B, c ∈ hexDigits)
    (hcap : 1 ≤ k → 2 ^ k + 2 ≤ p.pipe_capacity) :
    (∃ line, multiply p A B = some (Run.success (line ++ [NL])) ∧
      hexval line = hexval A * hexval B) ∧
    (1 ≤ k →
      A = A.take (A.length / 2) ++ (A.drop (A.length / 2)).take (A.length / 2) ∧
      B = B.take (A.length / 2) ++ (B.drop (A.length / 2)).take (A.length / 2) ∧
      ∃ HH HL LH LL line,
        multiply p (A.take (A.length / 2)) (B.take (A.length / 2))
          = some (Run.success (HH ++ [NL])) ∧
        hexval HH = hexval (A.take (A.length / 2)) * hexval (B.take (A.length / 2)) ∧
        multiply p (A.take (A.length / 2)) ((B.drop (A.length / 2)).take (A.length / 2))
          = some (Run.success (HL ++ [NL])) ∧
        hexval HL = hexval (A.take (A.length / 2))
          * hexval ((B.drop (A.length / 2)).take (A.length / 2)) ∧
        multiply p ((A.drop (A.length / 2)).take (A.length / 2)) (B.take (A.length / 2))
          = some (Run.success (LH ++ [NL])) ∧
        hexval LH = hexval ((A.drop (A.length / 2)).take (A.length / 2))
          * hexval (B.take (A.length / 2)) ∧
        multiply p ((A.drop (A.length / 2)).take (A.length / 2))
            ((B.drop (A.length / 2)).take (A.length / 2))
          = some (Run.success (LL ++ [NL])) ∧
        hexval LL = hexval ((A.drop (A.length / 2)).take (A.length / 2))
          * hexval ((B.drop (A.length / 2)).take (A.length / 2)) ∧
        multiply p A B = some (Run.success (line ++ [NL])) ∧
        hexval line = hexval HH * 16 ^ A.length + hexval HL * 16 ^ (A.length / 2)
          + hexval LH * 16 ^ (A.length / 2) + hexval LL) := by
  constructor
  · obtain ⟨line, hm, _, hval, _, _⟩ := multiply_pow2 p hp k A B lA lB hA hB hcap
    exact ⟨line, hm, hval⟩
  · intro hk
    obtain ⟨k', rfl⟩ : ∃ k', k = k' + 1 := ⟨k - 1, by omega⟩
    obtain ⟨HH, HL, LH, LL, a3, line, r0, r1, r2, r3, _, _, hw, hval, v0, v1, v2, v3, _, _, _,
      _, pv, _, _⟩ := multiply_step p hp k' A B lA lB hA hB (hcap hk)
    have lA2 : A.length = 2 * (A.length / 2) := by rw [lA, pow_succ]; omega
    have lB2 : B.length = 2 * (A.length / 2) := by rw [lB, lA, pow_succ]; omega
    have hdA : (A.drop (A.length / 2)).take (A.length / 2) = A.drop (A.length / 2) := by
      apply List.take_of_length_le
      rw [List.length_drop]
      omega
    have hdB : (B.drop (A.length / 2)).take (A.length / 2) = B.drop (A.length / 2) := by
      apply List.take_of_length_le
      rw [List.length_drop]
      omega
    refine ⟨?_, ?_, HH, HL, LH, LL, line, r0, v0, r1, v1, r2, v2, r3, v3, hw, ?_⟩
    · rw [hdA, List.take_append_drop]
    · rw [hdB, List.take_append_drop]
    · rw [pv, hval]

/-- C19 at "12" and "34" (n = 2) and at two operands of 65536 digits 'f'
(n = 2 ^ 16).  At "12" and "34" the sum of the four partial products is
"3a8", three digits; on every platform (with pipes of four bytes or more)
the program prints what `add_leading_zero` leaves of it, and on a platform
that ends the process at the copy between overlapping objects the worker
is killed without a line.  At 65536 digits the first `write` into a pipe
of 65536 bytes never returns.  In both runs the length is a power of two
and there is no product. -/
theorem C19_power_of_two_without_product :
    (∀ c ∈ "12".toList, c ∈ hexDigits) ∧ (∀ c ∈ "34".toList, c ∈ hexDigits) ∧
    "12".toList.length = 2 ^ 1 ∧ "34".toList.length = 2 ^ 1 ∧
    (∀ p : Platform, 4 ≤ p.pipe_capacity →
      multiply p "12".toList "34".toList =
        some (match p.odd_pad "3a8".toList with
          | none => Run.aborted
          | some line => Run.success (line ++ [NL]))) ∧
    multiply checking "12".toList "34".toList = some Run.aborted ∧
    (∀ c ∈ List.replicate 65536 'f', c ∈ hexDigits) ∧
    (List.replicate 65536 'f').length = 2 ^ 16 ∧
    ∀ p : Platform, p.pipe_capacity ≤ 65536 →
      multiply p (List.replicate 65536 'f') (List.replicate 65536 'f') = some Run.blocked := by
  have hv : ∀ c ∈ List.replicate 65536 'f', c ∈ hexDigits := by
    intro c hc
    rw [List.eq_of_mem_replicate hc]
    decide
  have hl : (List.replicate 65536 'f').length = 65536 := List.length_replicate _ _
  refine ⟨by decide, by decide, by decide, by decide, multiply_12_34, by decide, hv,
    by rw [hl]; norm_num, fun p hp => ?_⟩
  exact multiply_blocks p _ _ rfl (by rw [hl]; omega) (by rw [hl]) hv hv
    (by rw [hl]; omega)

/-- On a platform that pads strings of three digits: for valid operands of
power-of-two length n at least 2 that fit into a pipe the printed line has
exactly 2n digits; for single digits it has one digit when the product is
below 16 and two digits otherwise, and both widths occur ("3" times "4"
is "c", "f" times "f" is "e1"). -/
theorem fixed_width_result (p : Platform) (hp : p.pads_three) (k : Nat) (A B : List Char)
    (lA : A.length = 2 ^ k) (lB : B.length = 2 ^ k)
    (hA : ∀ c ∈ A, c ∈ hexDigits) (hB : ∀ c ∈ B, c ∈ hexDigits)
    (hcap : 1 ≤ k → 2 ^ k + 2 ≤ p.pipe_capacity) :
    (∃ line, multiply p A B = some (Run.success (line ++ [NL])) ∧
      (1 ≤ k → line.length = 2 * A.length) ∧
      (k = 0 → line.length = (if hexval A * hexval B < 16 then 1 else 2))) ∧
    multiply p ['3'] ['4'] = some (Run.success (['c'] ++ [NL])) ∧
    multiply p ['f'] ['f'] = some (Run.success (['e', '1'] ++ [NL])) := by
  refine ⟨?_, ?_, ?_⟩
  · rcases Nat.eq_zero_or_pos k with hk | hk
    · subst hk
      rw [pow_zero] at lA lB
      obtain ⟨a, rfl⟩ := length_one_eq A lA
      obtain ⟨b, rfl⟩ := length_one_eq B lB
      have ha := hA a (List.mem_singleton.mpr rfl)
      have hb := hB b (List.mem_singleton.mpr rfl)
      obtain ⟨e, hl, _, _⟩ := print_product_text a ha b hb
      refine ⟨_, by rw [multiply_single p a b ha hb, e], fun h => by omega, fun _ => ?_⟩
      rw [hl, hexval_single, hexval_single]
    · obtain ⟨line, hm, _, _, _, hl⟩ := multiply_pow2 p hp k A B lA lB hA hB hcap
      exact ⟨line, hm, fun _ => by rw [hl hk, lA], fun h => by omega⟩
  · rw [multiply_single p '3' '4' (by decide) (by decide)]
    decide
  · rw [multiply_single p 'f' 'f' (by decide) (by decide)]
    decide

end Intmul
